import Mathlib

/-!
# PaperArena — verification of the two Paper.io-style engines

A shallow embedding of the two JavaScript engines of the repository:

* the Grid engine (`class PaperIOGame`): a discrete board of `mapWidth ×
  mapHeight` cells, each cell owned by a player id (0 = unowned), players
  stepping one cell at a time, territory as a set of cell coordinates,
  enclosed-pocket reclamation by border flood fill;
* the Continuous engine (`class SmoothPaperIOGame`): continuous coordinates,
  territory as an accreted list of closed polygons, collision by
  point-to-segment distance against trail polylines.

Modelling conventions:

* JavaScript numbers are modelled exactly: cell coordinates and ids as `ℤ`/`ℕ`,
  continuous coordinates, speeds and timestamps as `ℚ` (the float code is
  modelled over exact rationals).
* Euclidean distances in the Continuous engine are modelled *squared*
  (`Math.sqrt` is irrational-valued; every use in the source compares a
  distance against a nonnegative threshold, and `sqrt d < t ↔ d < t²`, so the
  squared model preserves every branch of the source).  The degenerate-segment
  guard `length === 0` is equivalently `lengthSq = 0`.
* Mutation of the shared game object is modelled by explicit state passing;
  a `for (const p of this.players)` loop whose body can read earlier
  iterations' writes is modelled as a fold over indices updating the list in
  place.
* `Math.random()`-driven choices and `Date.now()` timestamps are inputs of the
  environment and appear as explicit oracle / time parameters.
* DOM access (canvas drawing, score HTML, timer text) carries no game state
  and is omitted.
-/

namespace PaperArena

/-! ## Grid engine: data model -/

/-- A board cell, the JS pair `{x, y}` (also used as the `"x,y"` set key). -/
abbrev Cell := ℤ × ℤ

/-- A Grid-engine player (`PaperIOGame` player object).  `color` is a fixed
palette string with no game-logic content and is omitted. -/
structure GPlayer where
  id : ℕ
  x : ℤ
  y : ℤ
  dirX : ℤ
  dirY : ℤ
  trail : List Cell
  territory : Finset Cell
  alive : Bool
  isHuman : Bool
  lastMoveTime : ℚ
  moveInterval : ℚ
deriving DecidableEq

instance : Inhabited GPlayer :=
  ⟨{ id := 0, x := 0, y := 0, dirX := 0, dirY := 0, trail := [],
     territory := ∅, alive := false, isHuman := false,
     lastMoveTime := 0, moveInterval := 0 }⟩

/-- The Grid-engine game state (`PaperIOGame` fields that carry game logic).
`grid` maps a cell to its owner id (`0` = unowned); the board bounds
`mapWidth`/`mapHeight` are passed to the operations explicitly. -/
structure GState where
  grid : Cell → ℕ
  players : List GPlayer
  gameRunning : Bool
  gameStartTime : ℚ

/-! ## Grid engine: `isValidMove` -/

/-- `PaperIOGame.isValidMove(player, x, y)`: bounds check, territory-owner
check, own-trail check, then other living players' trails. -/
def isValidMove (W H : ℤ) (grid : Cell → ℕ) (players : List GPlayer)
    (p : GPlayer) (x y : ℤ) : Bool :=
  if x < 0 ∨ W ≤ x ∨ y < 0 ∨ H ≤ y then false
  else if grid (x, y) ≠ 0 ∧ grid (x, y) ≠ p.id then false
  else if p.trail.any fun pos => decide (pos.1 = x ∧ pos.2 = y) then false
  else if players.any fun q =>
      decide (q.id ≠ p.id) && q.alive &&
        (q.trail.any fun pos => decide (pos.1 = x ∧ pos.2 = y)) then false
  else true

/-! ## Grid engine: flood fill -/

/-- One step of `getConnectedRegion`: pop the stack, skip cells already seen
(the JS `visited.has(key) || region.has(key)` — inside one call the mutated
`visited` is always the incoming set united with `region`), skip out-of-bounds
and owned cells, otherwise record the cell and push its four neighbours
(`x+1`, `x-1`, `y+1`, `y-1`; `Array.pop` is LIFO, so the last push is on top).
The fuel argument only bounds the iteration count; `getConnectedRegion`
supplies enough fuel for the loop to run to completion (proved below). -/
def regionGo (g : Cell → ℕ) (W H : ℤ) (visited : Finset Cell) :
    ℕ → List Cell → Finset Cell → Finset Cell
  | 0, _, region => region
  | _ + 1, [], region => region
  | fuel + 1, c :: rest, region =>
    if c ∈ visited ∨ c ∈ region then regionGo g W H visited fuel rest region
    else if c.1 < 0 ∨ W ≤ c.1 ∨ c.2 < 0 ∨ H ≤ c.2 then
      regionGo g W H visited fuel rest region
    else if g c ≠ 0 then regionGo g W H visited fuel rest region
    else
      regionGo g W H visited fuel
        ((c.1, c.2 - 1) :: (c.1, c.2 + 1) :: (c.1 - 1, c.2) :: (c.1 + 1, c.2) :: rest)
        (insert c region)

/-- `PaperIOGame.getConnectedRegion(startX, startY, visited)`: stack-based
flood fill collecting the 4-connected unowned region of the start cell.  The
caller sees `visited` grown by the returned region (the JS code adds each
region cell to `visited` as it goes). -/
def getConnectedRegion (g : Cell → ℕ) (W H : ℤ) (visited : Finset Cell)
    (c : Cell) : Finset Cell :=
  regionGo g W H visited (1 + 4 * (W.toNat * H.toNat)) [c] ∅

/-- A border cell of the board (`x === 0 || x === mapWidth-1 || y === 0 ||
y === mapHeight-1`). -/
def isBorderCell (W H : ℤ) (c : Cell) : Prop :=
  c.1 = 0 ∨ c.1 = W - 1 ∨ c.2 = 0 ∨ c.2 = H - 1

instance (W H : ℤ) (c : Cell) : Decidable (isBorderCell W H c) := by
  unfold isBorderCell
  infer_instance

/-- `PaperIOGame.regionTouchesBorder(region)`. -/
def regionTouchesBorder (W H : ℤ) (region : Finset Cell) : Prop :=
  ∃ c ∈ region, isBorderCell W H c

instance (W H : ℤ) (region : Finset Cell) :
    Decidable (regionTouchesBorder W H region) := by
  unfold regionTouchesBorder
  infer_instance

/-- The grid / territory / visited-set triple threaded through
`floodFillTerritory` (grid and `player.territory` are mutated in place in the
source; `visited` is the local set of the function). -/
structure FFState where
  grid : Cell → ℕ
  territory : Finset Cell
  visited : Finset Cell

/-- The body of `floodFillTerritory`'s double loop at one cell: if the cell is
unowned and unvisited, compute its connected region; if the region does not
touch the border, claim every region cell for `pid` and add it to the
territory. -/
def floodFillCell (W H : ℤ) (pid : ℕ) (s : FFState) (c : Cell) : FFState :=
  if s.grid c = 0 ∧ c ∉ s.visited then
    let region := getConnectedRegion s.grid W H s.visited c
    if regionTouchesBorder W H region then
      { s with visited := s.visited ∪ region }
    else
      { grid := fun d => if d ∈ region then pid else s.grid d,
        territory := s.territory ∪ region,
        visited := s.visited ∪ region }
  else s

/-- Cell enumeration order of `floodFillTerritory`: outer loop over `x`,
inner loop over `y`. -/
def cellList (W H : ℤ) : List Cell :=
  (List.range W.toNat).flatMap fun (x : ℕ) =>
    (List.range H.toNat).map fun (y : ℕ) => ((x : ℤ), (y : ℤ))

/-- `PaperIOGame.floodFillTerritory(player)`: board-wide pass claiming every
enclosed unowned pocket for the claiming player. -/
def floodFillTerritory (W H : ℤ) (pid : ℕ) (g : Cell → ℕ) (T : Finset Cell) :
    FFState :=
  (cellList W H).foldl (floodFillCell W H pid) ⟨g, T, ∅⟩

/-! ## Grid engine: claim, elimination, movement -/

/-- `PaperIOGame.claimTerritory(player)` acting on the grid and the player:
every trail cell becomes territory and gets grid owner `player.id`, then the
board-wide flood fill runs, then the trail is cleared.  (`updateScores` only
rewrites DOM HTML.) -/
def claimTerritory (W H : ℤ) (g : Cell → ℕ) (p : GPlayer) :
    (Cell → ℕ) × GPlayer :=
  if p.trail = [] then (g, p)
  else
    let g1 := p.trail.foldl (fun g2 pos => fun d => if d = pos then p.id else g2 d) g
    let T1 := p.territory ∪ p.trail.toFinset
    let ff := floodFillTerritory W H p.id g1 T1
    (ff.grid, { p with territory := ff.territory, trail := [] })

/-- `PaperIOGame.eliminatePlayer(player)` with explicit recursion fuel: set
`alive = false`, clear the trail, then iterate the (just cleared) trail of the
eliminated player against every other living player's trail, recursively
eliminating on a hit.  The recursion depth is bounded by the player count, so
`ps.length` fuel is always enough (and the loop body in fact never runs, the
trail being empty — proved below). -/
def eliminateGAux : ℕ → List GPlayer → ℕ → List GPlayer
  | 0, ps, _ => ps
  | fuel + 1, ps, i =>
    match ps[i]? with
    | none => ps
    | some p =>
      let ps1 := ps.set i { p with alive := false, trail := [] }
      (List.range ps1.length).foldl
        (fun acc j =>
          match acc[j]? with
          | none => acc
          | some q =>
            if q.id ≠ p.id ∧ q.alive = true then
              (((acc[i]?).getD p).trail).foldl
                (fun acc2 tp =>
                  match acc2[j]? with
                  | none => acc2
                  | some q2 =>
                    if q2.trail.any fun pos => decide (pos = tp) then
                      eliminateGAux fuel acc2 j
                    else acc2)
                acc
            else acc)
        ps1

/-- `PaperIOGame.eliminatePlayer` on the player at index `i`. -/
def eliminatePlayerG (ps : List GPlayer) (i : ℕ) : List GPlayer :=
  eliminateGAux ps.length ps i

/-- `PaperIOGame.movePlayer(player)` for the player at index `i`: step one
cell in the current direction; an invalid move eliminates the player;
otherwise the left cell is appended to the trail when outside territory, and
stepping onto own territory with a nonempty trail triggers the claim. -/
def movePlayerG (W H : ℤ) (st : (Cell → ℕ) × List GPlayer) (i : ℕ) :
    (Cell → ℕ) × List GPlayer :=
  match st.2[i]? with
  | none => st
  | some p =>
    let nx := p.x + p.dirX
    let ny := p.y + p.dirY
    if isValidMove W H st.1 st.2 p nx ny = false then
      (st.1, eliminatePlayerG st.2 i)
    else
      let p1 := if (p.x, p.y) ∈ p.territory then p
                else { p with trail := p.trail ++ [(p.x, p.y)] }
      let p2 := { p1 with x := nx, y := ny }
      if (nx, ny) ∈ p2.territory ∧ p2.trail ≠ [] then
        let r := claimTerritory W H st.1 p2
        (r.1, st.2.set i r.2)
      else (st.1, st.2.set i p2)

/-! ## Grid engine: AI, per-tick update, end check -/

/-- The four cardinal directions, in the order of `PaperIOGame.updateAI`. -/
def gridDirs : List (ℤ × ℤ) := [(0, -1), (0, 1), (-1, 0), (1, 0)]

/-- One tick's worth of `Math.random()` draws for the Grid AI:
`start` models `Math.floor(Math.random() * 4)` for a stationary player,
`keep` models `Math.random() < 0.9`, and `pick` models the index drawn from
the safe-direction list. -/
structure GAIChoice where
  start : ℕ
  keep : Bool
  pick : ℕ

/-- `PaperIOGame.updateAI(player)`: stationary players pick a random
direction; otherwise with probability 0.9 a valid current direction is kept;
else a uniformly random choice among valid, non-reversing directions (if any)
replaces the direction. -/
def updateAIG (W H : ℤ) (g : Cell → ℕ) (ps : List GPlayer) (c : GAIChoice)
    (p : GPlayer) : GPlayer :=
  if p.dirX = 0 ∧ p.dirY = 0 then
    let d := gridDirs.getD (c.start % 4) (0, 0)
    { p with dirX := d.1, dirY := d.2 }
  else if isValidMove W H g ps p (p.x + p.dirX) (p.y + p.dirY) = true ∧
      c.keep = true then p
  else
    let safe := gridDirs.filter fun d =>
      isValidMove W H g ps p (p.x + d.1) (p.y + d.2) &&
        !(decide (d.1 = -p.dirX ∧ d.2 = -p.dirY))
    if safe.length > 0 then
      let d := safe.getD (c.pick % safe.length) (0, 0)
      { p with dirX := d.1, dirY := d.2 }
    else p

/-- The body of the `PaperIOGame.updatePlayers` loop for the player at index
`i`: a living player whose move timer has elapsed runs the AI (non-human
players), then — if the direction is nonzero — moves and stamps
`lastMoveTime`. -/
def updatePlayerStep (W H : ℤ) (oracle : ℕ → GAIChoice) (now : ℚ)
    (st : (Cell → ℕ) × List GPlayer) (i : ℕ) : (Cell → ℕ) × List GPlayer :=
  match st.2[i]? with
  | none => st
  | some p =>
    if p.alive = true then
      if now - p.lastMoveTime ≥ p.moveInterval then
        let st1 := if p.isHuman then st
                   else (st.1, st.2.set i (updateAIG W H st.1 st.2 (oracle i) p))
        match st1.2[i]? with
        | none => st1
        | some p1 =>
          if p1.dirX ≠ 0 ∨ p1.dirY ≠ 0 then
            let st2 := movePlayerG W H st1 i
            match st2.2[i]? with
            | none => st2
            | some p2 => (st2.1, st2.2.set i { p2 with lastMoveTime := now })
          else st1
      else st
    else st

/-- `PaperIOGame.updatePlayers(currentTime)`: the loop mutates the shared
player list and grid as it goes, modelled as a fold over indices. -/
def updatePlayersG (W H : ℤ) (oracle : ℕ → GAIChoice) (now : ℚ)
    (g : Cell → ℕ) (ps : List GPlayer) : (Cell → ℕ) × List GPlayer :=
  (List.range ps.length).foldl (updatePlayerStep W H oracle now) (g, ps)

/-- `PaperIOGame.showGameOver()` sorts `this.players` **in place** by
descending territory size (`Array.prototype.sort` mutates; the comparator is
`b.territory.size - a.territory.size` and the ECMAScript sort is stable,
modelled by the stable `List.insertionSort`), then renders the ranking. -/
def showGameOverG (ps : List GPlayer) : List GPlayer :=
  ps.insertionSort fun a b => b.territory.card ≤ a.territory.card

/-- Number of players with `alive = true`. -/
def aliveCount (ps : List GPlayer) : ℕ := (ps.filter fun p => p.alive).length

/-- `PaperIOGame.checkGameEnd()`: when at most one player is alive or the
elapsed wall-clock time reaches the 180000 ms limit, stop the game and run
`showGameOver` (which permutes the player array). -/
def checkGameEndG (now : ℚ) (s : GState) : GState :=
  if aliveCount s.players ≤ 1 ∨ now - s.gameStartTime ≥ 180000 then
    { s with gameRunning := false, players := showGameOverG s.players }
  else s

/-- One pass of `PaperIOGame.gameLoop()` minus rendering: when the game is
running, update the players then run the end check.  `now` is the
`Date.now()` read at the top of the loop, `now2` the one inside
`checkGameEnd`. -/
def gridTick (W H : ℤ) (oracle : ℕ → GAIChoice) (now now2 : ℚ)
    (s : GState) : GState :=
  if s.gameRunning = true then
    let r := updatePlayersG W H oracle now s.grid s.players
    checkGameEndG now2 { s with grid := r.1, players := r.2 }
  else s

/-! ## Continuous engine: data model -/

/-- A continuous-coordinate point, the JS `{x, y}` float pair. -/
abbrev SPoint := ℚ × ℚ

/-- A Continuous-engine player (`SmoothPaperIOGame` player object; `color`
and the opaque `aiTarget` field carry no game logic and are omitted). -/
structure SPlayer where
  id : ℕ
  x : ℚ
  y : ℚ
  dirX : ℚ
  dirY : ℚ
  trail : List SPoint
  territory : List (List SPoint)
  alive : Bool
  isHuman : Bool
  speed : ℚ
  lastDirectionChange : ℚ
deriving DecidableEq

instance : Inhabited SPlayer :=
  ⟨{ id := 0, x := 0, y := 0, dirX := 0, dirY := 0, trail := [],
     territory := [], alive := false, isHuman := false,
     speed := 0, lastDirectionChange := 0 }⟩

/-- The Continuous-engine game state; the canvas bounds are passed to the
operations explicitly. -/
structure SState where
  players : List SPlayer
  gameRunning : Bool
  gameStartTime : ℚ
  lastFrameTime : ℚ

/-- `this.playerSize = 8`, the collision threshold. -/
def playerSize : ℚ := 8

/-! ## Continuous engine: geometry -/

/-- `SmoothPaperIOGame.distanceToLineSegment(px, py, p1, p2)`, modelled
squared: the source returns `Math.sqrt(d)` and every caller compares the
result against a nonnegative threshold, so the squared value determines every
branch.  The JS guard `length === 0` is exactly `dx*dx + dy*dy = 0`; in that
degenerate case the direct point distance to `p1` is returned and the division
by the squared segment length is never reached. -/
def distSqToLineSegment (px py : ℚ) (p1 p2 : SPoint) : ℚ :=
  let dx := p2.1 - p1.1
  let dy := p2.2 - p1.2
  let lengthSq := dx * dx + dy * dy
  if lengthSq = 0 then (px - p1.1) ^ 2 + (py - p1.2) ^ 2
  else
    let t := max 0 (min 1 (((px - p1.1) * dx + (py - p1.2) * dy) / lengthSq))
    let projX := p1.1 + t * dx
    let projY := p1.2 + t * dy
    (px - projX) ^ 2 + (py - projY) ^ 2

/-- `SmoothPaperIOGame.isPointNearTrail(x, y, trail, threshold)`: the point is
within `threshold` of some consecutive trail segment (squared comparison, see
`distSqToLineSegment`). -/
def isPointNearTrail (x y : ℚ) (trail : List SPoint) (threshold : ℚ) : Bool :=
  (List.range (trail.length - 1)).any fun i =>
    decide (distSqToLineSegment x y (trail.getD i (0, 0)) (trail.getD (i + 1) (0, 0))
      < threshold ^ 2)

/-- `SmoothPaperIOGame.isPointInPolygon(x, y, polygon)`: the standard ray
casting loop (`j` trails `i` by one, starting at the last vertex).  The
division `(y - pi.y) / (pj.y - pi.y)` only runs when `pi.y > y` and `pj.y > y`
differ, which forces `pj.y ≠ pi.y`. -/
def isPointInPolygon (x y : ℚ) (poly : List SPoint) : Bool :=
  (List.range poly.length).foldl
    (fun inside i =>
      let p := poly.getD i (0, 0)
      let q := poly.getD ((i + poly.length - 1) % poly.length) (0, 0)
      if (decide (p.2 > y) != decide (q.2 > y)) &&
          decide (x < (q.1 - p.1) * (y - p.2) / (q.2 - p.2) + p.1) then
        !inside
      else inside)
    false

/-- `SmoothPaperIOGame.isInTerritory(player, x, y)`: inside some territory
polygon. -/
def isInTerritory (p : SPlayer) (x y : ℚ) : Bool :=
  p.territory.any fun poly => isPointInPolygon x y poly

/-! ## Continuous engine: trail closing, movement -/

/-- `SmoothPaperIOGame.findTerritoryConnection(player)`: "simplified: just
return the current position" — always a (truthy) point. -/
def findTerritoryConnection (p : SPlayer) : Option SPoint :=
  some (p.x, p.y)

/-- `SmoothPaperIOGame.closeTrail(player)`: a trail shorter than 3 points is
discarded; otherwise the current position is appended, the whole point
sequence is pushed as one new territory polygon, and the trail is cleared.
(`updateScores` only rewrites DOM HTML.) -/
def closeTrail (p : SPlayer) : SPlayer :=
  if p.trail.length < 3 then { p with trail := [] }
  else
    let trail1 := p.trail ++ [(p.x, p.y)]
    match findTerritoryConnection p with
    | some _ => { p with territory := p.territory ++ [trail1], trail := [] }
    | none => { p with trail := [] }

/-- `SmoothPaperIOGame.updatePlayers(deltaTime)`: integrate the position;
outside territory, the pre-move position is appended to the trail when the
frame displacement exceeds 2 units (squared comparison); inside territory
with a nonempty trail, the trail is closed.  Each iteration only reads and
writes its own player, so the loop is a `map`. -/
def moveSPlayer (dt : ℚ) (p : SPlayer) : SPlayer :=
  if p.alive = false ∨ (p.dirX = 0 ∧ p.dirY = 0) then p
  else
    let oldX := p.x
    let oldY := p.y
    let p1 := { p with x := p.x + p.dirX * p.speed * dt,
                       y := p.y + p.dirY * p.speed * dt }
    if isInTerritory p1 p1.x p1.y = false then
      if (p1.x - oldX) ^ 2 + (p1.y - oldY) ^ 2 > 2 ^ 2 then
        { p1 with trail := p1.trail ++ [(oldX, oldY)] }
      else p1
    else if p1.trail ≠ [] then closeTrail p1
    else p1

/-- `SmoothPaperIOGame.updatePlayers(deltaTime)` maps the per-player body
over the list. -/
def updateSPlayers (dt : ℚ) (ps : List SPlayer) : List SPlayer :=
  ps.map (moveSPlayer dt)

/-! ## Continuous engine: collisions, elimination -/

/-- `SmoothPaperIOGame.eliminatePlayer(player)`: dead, trail cleared,
direction zeroed.  (`updateScores` only rewrites DOM HTML.) -/
def eliminatePlayerS (p : SPlayer) : SPlayer :=
  { p with alive := false, trail := [], dirX := 0, dirY := 0 }

/-- The body of `SmoothPaperIOGame.checkCollisions()` for one player against
the current player list `ps`: dead players are skipped; leaving the canvas
eliminates immediately (`continue`); a hit on another living player's trail
eliminates (then `break` — the own-trail check below still runs, on the
already-cleared trail); with more than 10 trail points, a hit on the own
trail minus its last 5 points (`slice(0, -5)`) eliminates. -/
def checkOneCollision (cw ch : ℚ) (ps : List SPlayer) (p : SPlayer) : SPlayer :=
  if p.alive = false then p
  else if p.x < 0 ∨ p.x > cw ∨ p.y < 0 ∨ p.y > ch then eliminatePlayerS p
  else
    let p1 := if ps.any fun q =>
        decide (q.id ≠ p.id) && q.alive && isPointNearTrail p.x p.y q.trail playerSize
      then eliminatePlayerS p else p
    if p1.trail.length > 10 then
      if isPointNearTrail p1.x p1.y (p1.trail.take (p1.trail.length - 5)) playerSize then
        eliminatePlayerS p1
      else p1
    else p1

/-- `SmoothPaperIOGame.checkCollisions()` truncated to its first `n` loop
iterations: players are processed in array order and earlier eliminations
(cleared trails, dead flags) are visible to later checks. -/
def checkCollisionsUpTo (cw ch : ℚ) (ps : List SPlayer) (n : ℕ) : List SPlayer :=
  (List.range n).foldl
    (fun acc i =>
      match acc[i]? with
      | none => acc
      | some p => acc.set i (checkOneCollision cw ch acc p))
    ps

/-- `SmoothPaperIOGame.checkCollisions()`. -/
def checkCollisionsS (cw ch : ℚ) (ps : List SPlayer) : List SPlayer :=
  checkCollisionsUpTo cw ch ps ps.length

/-! ## Continuous engine: AI, scoring, end check -/

/-- `SmoothPaperIOGame.updateAI` / `updateAIDirection` /
`findBestAIDirection` draw on `Math.random()` and on Euclidean
(square-root-valued) probe scoring, and their only effect is to overwrite
`direction` and `lastDirectionChange` of living AI players.  They are
modelled by an arbitrary per-index oracle with exactly that frame, so a
theorem quantified over the oracle covers every behaviour of the source
policy (returning the old values models the no-change branches). -/
def updateAIS (oracle : ℕ → SPlayer → (ℚ × ℚ) × ℚ) (ps : List SPlayer) :
    List SPlayer :=
  ps.mapIdx fun i p =>
    if p.alive = true ∧ p.isHuman = false then
      let r := oracle i p
      { p with dirX := r.1.1, dirY := r.1.2, lastDirectionChange := r.2 }
    else p

/-- Shoelace polygon area, `SmoothPaperIOGame.polygonArea`. -/
def polygonArea (poly : List SPoint) : ℚ :=
  |(List.range poly.length).foldl
      (fun area i =>
        let p := poly.getD i (0, 0)
        let q := poly.getD ((i + 1) % poly.length) (0, 0)
        area + p.1 * q.2 - q.1 * p.2)
      0| / 2

/-- `SmoothPaperIOGame.calculateTerritoryArea(territories)`: polygon areas
summed without overlap correction. -/
def calculateTerritoryArea (territories : List (List SPoint)) : ℚ :=
  territories.foldl (fun total poly => total + polygonArea poly) 0

/-- `SmoothPaperIOGame.showGameOver()` sorts a **copy** (`[...this.players]`)
by descending territory area and renders it; the game state's player array is
left in its original order.  Modelled as the (unchanged players, displayed
ranking) pair. -/
def showGameOverS (ps : List SPlayer) : List SPlayer × List SPlayer :=
  (ps, ps.insertionSort fun a b =>
    calculateTerritoryArea b.territory ≤ calculateTerritoryArea a.territory)

/-- Number of players with `alive = true`. -/
def aliveCountS (ps : List SPlayer) : ℕ := (ps.filter fun p => p.alive).length

/-- `SmoothPaperIOGame.checkGameEnd()`: same end predicate as the Grid
engine; `showGameOver` here only sorts a copy, so the state keeps its player
order. -/
def checkGameEndS (now : ℚ) (s : SState) : SState :=
  if aliveCountS s.players ≤ 1 ∨ now - s.gameStartTime ≥ 180000 then
    { s with gameRunning := false }
  else s

/-- One pass of `SmoothPaperIOGame.gameLoop()` minus rendering:
`lastFrameTime` is stamped unconditionally; when the game is running the
frame runs movement, collisions, AI and the end check in order.  `now` is the
`Date.now()` at the top of the loop, `now2` the one inside `checkGameEnd`. -/
def smoothTick (cw ch : ℚ) (oracle : ℕ → SPlayer → (ℚ × ℚ) × ℚ)
    (now now2 : ℚ) (s : SState) : SState :=
  let dt := (now - s.lastFrameTime) / 1000
  let s1 := { s with lastFrameTime := now }
  if s1.gameRunning = true then
    let ps1 := updateSPlayers dt s1.players
    let ps2 := checkCollisionsS cw ch ps1
    let ps3 := updateAIS oracle ps2
    checkGameEndS now2 { s1 with players := ps3 }
  else s1

end PaperArena

namespace PaperArena

/-- C2.  The Grid engine `isValidMove(player, x, y)` returns `false` exactly
when the target is out of bounds, or the target cell has a nonzero owner
different from the player, or the target is on the player's own trail, or the
target is on the trail of some other living player; in every other case it
returns `true`.  (`isValidMove` is a plain function of the board state it is
handed — as a Lean function it mutates nothing by construction.) -/
theorem isValidMove_false_iff (W H : ℤ) (grid : Cell → ℕ)
    (players : List GPlayer) (p : GPlayer) (x y : ℤ) :
    isValidMove W H grid players p x y = false ↔
      ((x < 0 ∨ W ≤ x ∨ y < 0 ∨ H ≤ y) ∨
       (grid (x, y) ≠ 0 ∧ grid (x, y) ≠ p.id) ∨
       ((x, y) ∈ p.trail) ∨
       (∃ q ∈ players, q.id ≠ p.id ∧ q.alive = true ∧ (x, y) ∈ q.trail)) := by
  unfold isValidMove
  have hmem : ∀ l : List Cell,
      (l.any fun pos => decide (pos.1 = x ∧ pos.2 = y)) = true ↔ (x, y) ∈ l := by
    intro l
    simp only [List.any_eq_true, decide_eq_true_eq]
    constructor
    · rintro ⟨pos, hpos, h1, h2⟩
      have : pos = (x, y) := by
        cases pos; simp_all
      simpa [this] using hpos
    · intro h
      exact ⟨(x, y), h, rfl, rfl⟩
  have hmem2 : (players.any fun q =>
      decide (q.id ≠ p.id) && q.alive &&
        (q.trail.any fun pos => decide (pos.1 = x ∧ pos.2 = y))) = true ↔
      ∃ q ∈ players, q.id ≠ p.id ∧ q.alive = true ∧ (x, y) ∈ q.trail := by
    have hpt : ∀ l : List Cell, (∃ pos ∈ l, pos.1 = x ∧ pos.2 = y) ↔ (x, y) ∈ l := by
      intro l
      constructor
      · rintro ⟨pos, hpos, h1, h2⟩
        have : pos = (x, y) := by cases pos; simp_all
        simpa [this] using hpos
      · intro h
        exact ⟨(x, y), h, rfl, rfl⟩
    simp only [List.any_eq_true, Bool.and_eq_true, decide_eq_true_eq, hpt]
    constructor
    · rintro ⟨q, hq, ⟨hid, halive⟩, htr⟩
      exact ⟨q, hq, hid, halive, htr⟩
    · rintro ⟨q, hq, hid, halive, htr⟩
      exact ⟨q, hq, ⟨hid, halive⟩, htr⟩
  split_ifs with h1 h2 h3 h4
  · simp only [eq_self_iff_true, true_iff]
    exact Or.inl h1
  · simp only [eq_self_iff_true, true_iff]
    exact Or.inr (Or.inl h2)
  · simp only [eq_self_iff_true, true_iff]
    exact Or.inr (Or.inr (Or.inl ((hmem p.trail).mp h3)))
  · simp only [eq_self_iff_true, true_iff]
    exact Or.inr (Or.inr (Or.inr (hmem2.mp h4)))
  · constructor
    · intro h; cases h
    · rintro (h | h | h | h)
      · exact absurd h h1
      · exact absurd h h2
      · exact absurd ((hmem p.trail).mpr h) (by simpa using h3)
      · exact absurd (hmem2.mpr h) (by simpa using h4)

/-! ## Shared helper lemmas -/

/-- A fold whose step fixes the accumulator returns the accumulator. -/
theorem foldl_const_of_fixed {α β : Type _} {f : β → α → β} {b : β} :
    ∀ l : List α, (∀ a ∈ l, f b a = b) → l.foldl f b = b := by
  intro l
  induction l with
  | nil => intro _; rfl
  | cons x xs ih =>
    intro h
    rw [List.foldl_cons, h x (by simp)]
    exact ih fun a ha => h a (by simp [ha])

/-! ## C6: Grid eliminatePlayer -/

/-- C6.  The Grid engine `eliminatePlayer(p)` sets `p.alive` to `false` and
`p.trail` to the empty list and changes nothing else: `p`'s position is kept
and every other player is untouched (the equality with `List.set` at the one
index says exactly this).  The mutual-trail-intersection loop iterates `p`'s
trail *after* it has been cleared, so it is a no-op. -/
theorem eliminatePlayerG_spec (ps : List GPlayer) (i : ℕ) (p : GPlayer)
    (hp : ps[i]? = some p) :
    eliminatePlayerG ps i = ps.set i { p with alive := false, trail := [] } := by
  have hi : i < ps.length := by
    by_contra hcon
    rw [List.getElem?_eq_none (Nat.le_of_not_lt hcon)] at hp
    cases hp
  obtain ⟨n, hn⟩ : ∃ n, ps.length = n + 1 := ⟨ps.length - 1, by omega⟩
  unfold eliminatePlayerG
  rw [hn]
  simp only [eliminateGAux, hp]
  refine foldl_const_of_fixed _ ?_
  intro j _
  have hpsi : (ps.set i { p with alive := false, trail := [] })[i]? =
      some { p with alive := false, trail := [] } := by
    simp [List.getElem?_set, hi]
  cases hqj : (ps.set i { p with alive := false, trail := [] })[j]? with
  | none => simp [hqj]
  | some r =>
    simp only [hqj, hpsi]
    split
    · rfl
    · rfl

/-- Witness for C6 at a concrete two-player list. -/
def gpSample : GPlayer :=
  { id := 1, x := 2, y := 3, dirX := 1, dirY := 0, trail := [(2, 2), (1, 2)],
    territory := {(0, 0)}, alive := true, isHuman := true,
    lastMoveTime := 0, moveInterval := 100 }

/-- A second concrete Grid player, larger territory. -/
def gpSample2 : GPlayer :=
  { id := 2, x := 5, y := 5, dirX := 0, dirY := 1, trail := [(5, 4)],
    territory := {(5, 5), (5, 6), (6, 5)}, alive := true, isHuman := false,
    lastMoveTime := 0, moveInterval := 150 }

/-- C6 witness: eliminating player 0 of a concrete two-player list. -/
theorem eliminatePlayerG_spec_witness :
    eliminatePlayerG [gpSample, gpSample2] 0 =
      [{ gpSample with alive := false, trail := [] }, gpSample2] :=
  eliminatePlayerG_spec [gpSample, gpSample2] 0 gpSample rfl

/-! ## C8: Continuous closeTrail -/

/-- C8.  The Continuous engine `closeTrail`: with fewer than 3 trail points
the trail is discarded and the territory list is unchanged; with at least 3
points the current position is appended to the trail, the resulting sequence
is appended to the territory list as one new polygon, and the trail is
cleared. -/
theorem closeTrail_spec (p : SPlayer) :
    (p.trail.length < 3 → closeTrail p = { p with trail := [] }) ∧
    (3 ≤ p.trail.length →
      closeTrail p =
        { p with territory := p.territory ++ [p.trail ++ [(p.x, p.y)]],
                 trail := [] }) := by
  constructor
  · intro h
    simp [closeTrail, h]
  · intro h
    rw [closeTrail, if_neg (by omega)]
    rfl

/-- Concrete Continuous players for witnesses. -/
def spSample : SPlayer :=
  { id := 1, x := 10, y := 10, dirX := 1, dirY := 0,
    trail := [(1, 1), (9, 1)], territory := [[(0, 0), (4, 0), (0, 4)]],
    alive := true, isHuman := true, speed := 120, lastDirectionChange := 0 }

/-- A Continuous player with a long trail. -/
def spSample2 : SPlayer :=
  { id := 2, x := 700, y := 100, dirX := 0, dirY := 1,
    trail := [(1, 1), (9, 1), (9, 9)], territory := [],
    alive := true, isHuman := false, speed := 100, lastDirectionChange := 0 }

/-- C8 witness: both branches at concrete players (2-point and 3-point
trails). -/
theorem closeTrail_spec_witness :
    closeTrail spSample = { spSample with trail := [] } ∧
    closeTrail spSample2 =
      { spSample2 with
          territory := spSample2.territory ++
            [spSample2.trail ++ [(spSample2.x, spSample2.y)]],
          trail := [] } :=
  ⟨(closeTrail_spec spSample).1 (by decide),
   (closeTrail_spec spSample2).2 (by decide)⟩

/-! ## C9: degenerate segments in distanceToLineSegment -/

/-- C9.  The Continuous engine `distanceToLineSegment`: the `length === 0`
guard holds exactly when the two endpoints coincide, and in that case the
function returns the direct point distance to `p1` (squared model), never
reaching the division by the squared segment length.  The function is total:
the only division is under the guard. -/
theorem distSqToLineSegment_spec (px py : ℚ) (p1 p2 : SPoint) :
    ((p2.1 - p1.1) * (p2.1 - p1.1) + (p2.2 - p1.2) * (p2.2 - p1.2) = 0 ↔
        p2 = p1) ∧
    (p2 = p1 →
      distSqToLineSegment px py p1 p2 = (px - p1.1) ^ 2 + (py - p1.2) ^ 2) := by
  have hzero : (p2.1 - p1.1) * (p2.1 - p1.1) + (p2.2 - p1.2) * (p2.2 - p1.2) = 0 ↔
      p2 = p1 := by
    constructor
    · intro h
      have h1 := (add_eq_zero_iff_of_nonneg (mul_self_nonneg _) (mul_self_nonneg _)).mp h
      have hx : p2.1 - p1.1 = 0 := mul_self_eq_zero.mp h1.1
      have hy : p2.2 - p1.2 = 0 := mul_self_eq_zero.mp h1.2
      have : p2.1 = p1.1 := by linarith
      have : p2.2 = p1.2 := by linarith
      cases p1; cases p2; simp_all
    · rintro rfl; ring
  refine ⟨hzero, fun h => ?_⟩
  subst h
  simp [distSqToLineSegment]

/-- C9 witness: a concrete degenerate segment. -/
theorem distSqToLineSegment_spec_witness :
    distSqToLineSegment 1 2 (3, 4) (3, 4) = (1 - 3) ^ 2 + (2 - 4) ^ 2 :=
  (distSqToLineSegment_spec 1 2 (3, 4) (3, 4)).2 rfl

/-! ## C5: game-end predicate is one-way -/

/-- C5.  In both engines: whenever the end check runs in a state with at most
one living player or elapsed time at least 180000 ms, `gameRunning` becomes
`false`; and once `gameRunning` is `false`, a simulation tick never sets it
back to `true` (only `initializeGame`/restart does). -/
theorem gameEnd_oneWay :
    (∀ (now : ℚ) (s : GState),
        aliveCount s.players ≤ 1 ∨ now - s.gameStartTime ≥ 180000 →
        (checkGameEndG now s).gameRunning = false) ∧
    (∀ (W H : ℤ) (oracle : ℕ → GAIChoice) (now now2 : ℚ) (s : GState),
        s.gameRunning = false →
        (gridTick W H oracle now now2 s).gameRunning = false) ∧
    (∀ (now : ℚ) (s : SState),
        aliveCountS s.players ≤ 1 ∨ now - s.gameStartTime ≥ 180000 →
        (checkGameEndS now s).gameRunning = false) ∧
    (∀ (cw ch : ℚ) (oracle : ℕ → SPlayer → (ℚ × ℚ) × ℚ) (now now2 : ℚ)
        (s : SState),
        s.gameRunning = false →
        (smoothTick cw ch oracle now now2 s).gameRunning = false) := by
  refine ⟨?_, ?_, ?_, ?_⟩
  · intro now s h
    simp [checkGameEndG, if_pos h]
  · intro W H oracle now now2 s h
    simp [gridTick, h]
  · intro now s h
    simp [checkGameEndS, if_pos h]
  · intro cw ch oracle now now2 s h
    simp [smoothTick, h]

/-- A concrete stopped Grid state. -/
def gsStopped : GState :=
  { grid := fun _ => 0, players := [gpSample, gpSample2],
    gameRunning := false, gameStartTime := 0 }

/-- A concrete running Grid state with one living player. -/
def gsOneAlive : GState :=
  { grid := fun _ => 0, players := [gpSample, { gpSample2 with alive := false }],
    gameRunning := true, gameStartTime := 0 }

/-- A concrete stopped Continuous state. -/
def ssStopped : SState :=
  { players := [spSample, spSample2], gameRunning := false,
    gameStartTime := 0, lastFrameTime := 0 }

/-- A concrete running Continuous state past the time limit. -/
def ssTimedOut : SState :=
  { players := [spSample, spSample2], gameRunning := true,
    gameStartTime := 0, lastFrameTime := 200000 }

/-- C5 witness: all four conjuncts at concrete states. -/
theorem gameEnd_oneWay_witness :
    (checkGameEndG 5 gsOneAlive).gameRunning = false ∧
    (gridTick 80 60 (fun _ => ⟨0, true, 0⟩) 5 5 gsStopped).gameRunning = false ∧
    (checkGameEndS 200000 ssTimedOut).gameRunning = false ∧
    (smoothTick 800 600 (fun _ p => ((p.dirX, p.dirY), p.lastDirectionChange))
        200016 200016 ssStopped).gameRunning = false :=
  ⟨gameEnd_oneWay.1 5 gsOneAlive (Or.inl (by decide)),
   gameEnd_oneWay.2.1 80 60 _ 5 5 gsStopped rfl,
   gameEnd_oneWay.2.2.1 200000 ssTimedOut
     (Or.inr (of_decide_eq_true (by with_unfolding_all rfl))),
   gameEnd_oneWay.2.2.2 800 600 _ 200016 200016 ssStopped rfl⟩

/-! ## C10: showGameOver sorts in place (Grid) vs on a copy (Continuous) -/

/-- C10.  The Grid engine `showGameOver` sorts `this.players` in place by
descending territory size, permanently permuting the array (the result is a
permutation of the input, sorted descending, so index 0 carries a
highest-territory player — by the concrete instance below not necessarily the
player with id 1, whom the keyboard handler and `updateAI` find at index 0);
the Continuous engine sorts a copy, leaving the array order unchanged. -/
theorem showGameOver_spec :
    (∀ ps : List GPlayer,
        (showGameOverG ps).Perm ps ∧
        List.Sorted (fun a b => b.territory.card ≤ a.territory.card)
          (showGameOverG ps)) ∧
    (∀ ps : List GPlayer, ∀ p ∈ ps, ∀ q ∈ (showGameOverG ps).head?,
        p.territory.card ≤ q.territory.card) ∧
    (∀ ps : List SPlayer, (showGameOverS ps).1 = ps) ∧
    ((showGameOverG [gpSample, gpSample2]).head?.map GPlayer.id = some 2 ∧
      [gpSample, gpSample2].head?.map GPlayer.id = some 1) := by
  haveI : IsTotal GPlayer (fun a b => b.territory.card ≤ a.territory.card) :=
    ⟨fun a b => le_total b.territory.card a.territory.card⟩
  haveI : IsTrans GPlayer (fun a b => b.territory.card ≤ a.territory.card) :=
    ⟨fun _ _ _ h1 h2 => le_trans h2 h1⟩
  have hperm : ∀ ps : List GPlayer, (showGameOverG ps).Perm ps := fun ps =>
    List.perm_insertionSort _ ps
  have hsorted : ∀ ps : List GPlayer,
      List.Sorted (fun a b => b.territory.card ≤ a.territory.card)
        (showGameOverG ps) := fun ps => List.sorted_insertionSort _ ps
  refine ⟨fun ps => ⟨hperm ps, hsorted ps⟩, ?_, fun _ => rfl, by decide, by decide⟩
  intro ps p hp q hq
  have hmem : p ∈ showGameOverG ps := (hperm ps).mem_iff.mpr hp
  cases hh : showGameOverG ps with
  | nil => rw [hh] at hmem; cases hmem
  | cons a t =>
    rw [hh] at hq hmem
    simp only [List.head?_cons, Option.mem_def, Option.some_inj] at hq
    subst hq
    rcases List.mem_cons.mp hmem with h | h
    · subst h; exact le_refl _
    · have hs := hsorted ps
      rw [hh] at hs
      exact List.rel_of_sorted_cons hs p h

/-- C10 witness: head-max fact at a concrete list. -/
theorem showGameOver_spec_witness :
    gpSample.territory.card ≤
      (((showGameOverG [gpSample, gpSample2]).head?).getD gpSample).territory.card := by
  have h := showGameOver_spec.2.1 [gpSample, gpSample2] gpSample (by simp)
  cases hh : (showGameOverG [gpSample, gpSample2]).head? with
  | none =>
    have hperm := (showGameOver_spec.1 [gpSample, gpSample2]).1
    have : showGameOverG [gpSample, gpSample2] ≠ [] := by
      intro hnil
      have := hperm.length_eq
      rw [hnil] at this
      simp at this
    cases hcs : showGameOverG [gpSample, gpSample2] with
    | nil => exact absurd hcs this
    | cons a t => rw [hcs] at hh; simp at hh
  | some q =>
    have := h q (by rw [hh]; rfl)
    simpa [hh] using this

/-! ## C4: Continuous collision check -/

/-- The elimination condition of `checkCollisions` for one player, read
against the player list `qs` current at the moment the player is processed:
out of canvas bounds, or within `playerSize` of another living player's
trail, or — with more than 10 trail points — within `playerSize` of the own
trail minus its most recent 5 points. -/
def sElimCond (cw ch : ℚ) (qs : List SPlayer) (p : SPlayer) : Prop :=
  (p.x < 0 ∨ p.x > cw ∨ p.y < 0 ∨ p.y > ch) ∨
  (∃ q ∈ qs, q.id ≠ p.id ∧ q.alive = true ∧
    isPointNearTrail p.x p.y q.trail playerSize = true) ∨
  (p.trail.length > 10 ∧
    isPointNearTrail p.x p.y (p.trail.take (p.trail.length - 5)) playerSize = true)

instance (cw ch : ℚ) (qs : List SPlayer) (p : SPlayer) :
    Decidable (sElimCond cw ch qs p) := by
  unfold sElimCond
  infer_instance

/-- `checkOneCollision` on a living player eliminates exactly under
`sElimCond` (relative to the list it is handed). -/
theorem checkOneCollision_eq (cw ch : ℚ) (qs : List SPlayer) (p : SPlayer)
    (halive : p.alive = true) :
    checkOneCollision cw ch qs p =
      if sElimCond cw ch qs p then eliminatePlayerS p else p := by
  have hany : (qs.any fun q =>
      decide (q.id ≠ p.id) && q.alive && isPointNearTrail p.x p.y q.trail playerSize)
        = true ↔
      ∃ q ∈ qs, q.id ≠ p.id ∧ q.alive = true ∧
        isPointNearTrail p.x p.y q.trail playerSize = true := by
    simp only [List.any_eq_true, Bool.and_eq_true, decide_eq_true_eq]
    constructor
    · rintro ⟨q, hq, ⟨h1, h2⟩, h3⟩
      exact ⟨q, hq, h1, h2, h3⟩
    · rintro ⟨q, hq, h1, h2, h3⟩
      exact ⟨q, hq, ⟨h1, h2⟩, h3⟩
  rw [checkOneCollision]
  rw [if_neg (by simp [halive])]
  by_cases hob : p.x < 0 ∨ p.x > cw ∨ p.y < 0 ∨ p.y > ch
  · rw [if_pos hob, if_pos (show sElimCond cw ch qs p from Or.inl hob)]
  · rw [if_neg hob]
    dsimp only
    by_cases hA : (qs.any fun q =>
        decide (q.id ≠ p.id) && q.alive &&
          isPointNearTrail p.x p.y q.trail playerSize) = true
    · rw [if_pos hA]
      rw [if_neg (show ¬ (eliminatePlayerS p).trail.length > 10 by
        simp [eliminatePlayerS])]
      rw [if_pos (show sElimCond cw ch qs p from Or.inr (Or.inl (hany.mp hA)))]
    · rw [if_neg hA]
      by_cases hlen : p.trail.length > 10
      · by_cases hnear :
            isPointNearTrail p.x p.y (p.trail.take (p.trail.length - 5)) playerSize = true
        · rw [if_pos hlen, if_pos hnear,
            if_pos (show sElimCond cw ch qs p from Or.inr (Or.inr ⟨hlen, hnear⟩))]
        · have hnc : ¬ sElimCond cw ch qs p := by
            rintro (h | h | h)
            exacts [hob h, hA (hany.mpr h), hnear h.2]
          rw [if_pos hlen, if_neg hnear, if_neg hnc]
      · have hnc : ¬ sElimCond cw ch qs p := by
          rintro (h | h | h)
          exacts [hob h, hA (hany.mpr h), hlen h.1]
        rw [if_neg hlen, if_neg hnc]

/-- The player list is preserved in length by every prefix of the collision
pass. -/
theorem checkCollisionsUpTo_length (cw ch : ℚ) (ps : List SPlayer) :
    ∀ n, (checkCollisionsUpTo cw ch ps n).length = ps.length := by
  intro n
  induction n with
  | zero => rfl
  | succ n ih =>
    rw [checkCollisionsUpTo, List.range_succ, List.foldl_append]
    show (match (checkCollisionsUpTo cw ch ps n)[n]? with
      | none => checkCollisionsUpTo cw ch ps n
      | some p => (checkCollisionsUpTo cw ch ps n).set n
          (checkOneCollision cw ch (checkCollisionsUpTo cw ch ps n) p)).length = _
    cases (checkCollisionsUpTo cw ch ps n)[n]? with
    | none => exact ih
    | some p => simpa using ih

/-- Indices not yet processed are untouched by the prefix pass. -/
theorem checkCollisionsUpTo_untouched (cw ch : ℚ) (ps : List SPlayer) :
    ∀ n j, n ≤ j → (checkCollisionsUpTo cw ch ps n)[j]? = ps[j]? := by
  intro n
  induction n with
  | zero => intro j _; rfl
  | succ n ih =>
    intro j hj
    rw [checkCollisionsUpTo, List.range_succ, List.foldl_append]
    show (match (checkCollisionsUpTo cw ch ps n)[n]? with
      | none => checkCollisionsUpTo cw ch ps n
      | some p => (checkCollisionsUpTo cw ch ps n).set n
          (checkOneCollision cw ch (checkCollisionsUpTo cw ch ps n) p))[j]? = _
    cases (checkCollisionsUpTo cw ch ps n)[n]? with
    | none => exact ih j (by omega)
    | some p =>
      rw [List.getElem?_set_ne (by omega)]
      exact ih j (by omega)

/-- Once an index has been processed its entry never changes again. -/
theorem checkCollisionsUpTo_stable (cw ch : ℚ) (ps : List SPlayer) (i : ℕ) :
    ∀ n, i < n →
      (checkCollisionsUpTo cw ch ps n)[i]? = (checkCollisionsUpTo cw ch ps (i + 1))[i]? := by
  intro n
  induction n with
  | zero => intro h; omega
  | succ n ih =>
    intro h
    by_cases hin : i < n
    · rw [checkCollisionsUpTo, List.range_succ, List.foldl_append]
      show (match (checkCollisionsUpTo cw ch ps n)[n]? with
        | none => checkCollisionsUpTo cw ch ps n
        | some p => (checkCollisionsUpTo cw ch ps n).set n
            (checkOneCollision cw ch (checkCollisionsUpTo cw ch ps n) p))[i]? = _
      cases (checkCollisionsUpTo cw ch ps n)[n]? with
      | none => exact ih hin
      | some p =>
        rw [List.getElem?_set_ne (by omega)]
        exact ih hin
    · have : n = i := by omega
      subst this
      rfl

/-- C4 (amended).  A living player is eliminated by `checkCollisions` exactly
when, *in the player list current at the moment the loop processes it*
(players are processed in array order; an earlier elimination in the same
pass has already cleared that player's `alive` flag and trail), its position
is out of the canvas bounds, or within `playerSize` (8 units) of another
living player's trail, or — only when its own trail is longer than 10
points — within `playerSize` of its own trail minus the most recent 5 points;
elimination sets `alive` to `false`, clears the trail and zeroes the
direction. -/
theorem checkCollisions_step_spec (cw ch : ℚ) (ps : List SPlayer) (i : ℕ)
    (p : SPlayer) (hp : ps[i]? = some p) (halive : p.alive = true) :
    (checkCollisionsS cw ch ps)[i]? =
      some (if sElimCond cw ch (checkCollisionsUpTo cw ch ps i) p
            then eliminatePlayerS p else p) ∧
    eliminatePlayerS p =
      { p with alive := false, trail := [], dirX := 0, dirY := 0 } := by
  refine ⟨?_, rfl⟩
  have hi : i < ps.length := by
    by_contra hcon
    rw [List.getElem?_eq_none (Nat.le_of_not_lt hcon)] at hp
    cases hp
  rw [checkCollisionsS, checkCollisionsUpTo_stable cw ch ps i ps.length hi]
  rw [checkCollisionsUpTo, List.range_succ, List.foldl_append]
  have hui : (checkCollisionsUpTo cw ch ps i)[i]? = some p := by
    rw [checkCollisionsUpTo_untouched cw ch ps i i (le_refl i)]
    exact hp
  show (match (checkCollisionsUpTo cw ch ps i)[i]? with
    | none => checkCollisionsUpTo cw ch ps i
    | some q => (checkCollisionsUpTo cw ch ps i).set i
        (checkOneCollision cw ch (checkCollisionsUpTo cw ch ps i) q))[i]? = _
  rw [hui]
  show ((checkCollisionsUpTo cw ch ps i).set i
      (checkOneCollision cw ch (checkCollisionsUpTo cw ch ps i) p))[i]? = _
  rw [List.getElem?_set]
  rw [if_pos rfl, if_pos (by rw [checkCollisionsUpTo_length]; exact hi)]
  rw [checkOneCollision_eq cw ch _ p halive]

/-- Player A of the C4 counterexample: out of bounds, with a long vertical
trail. -/
def spOut : SPlayer :=
  { id := 1, x := -1, y := 50, dirX := -1, dirY := 0,
    trail := [(10, 10), (10, 30)], territory := [], alive := true,
    isHuman := true, speed := 120, lastDirectionChange := 0 }

/-- Player B of the C4 counterexample: in bounds, sitting on A's trail. -/
def spNear : SPlayer :=
  { id := 2, x := 10, y := 20, dirX := 0, dirY := 1,
    trail := [], territory := [], alive := true,
    isHuman := false, speed := 100, lastDirectionChange := 0 }

/-- C4 counterexample to the claim as stated: before the call, `spNear` is a
living, in-bounds player whose position is within `playerSize` of the living
player `spOut`'s trail, so the claim ("eliminated exactly when ... within
playerSize of another living player's trail") demands its elimination; but
`checkCollisions` processes `spOut` first (out of bounds ⇒ eliminated, trail
cleared), so `spNear` survives the very same call. -/
theorem checkCollisions_claim_counterexample :
    spOut.alive = true ∧ spNear.alive = true ∧
    isPointNearTrail spNear.x spNear.y spOut.trail playerSize = true ∧
    ¬(spNear.x < 0 ∨ spNear.x > 800 ∨ spNear.y < 0 ∨ spNear.y > 600) ∧
    ((checkCollisionsS 800 600 [spOut, spNear])[1]?.map SPlayer.alive
      = some true) :=
  of_decide_eq_true (by with_unfolding_all rfl)

/-- C4 witness: the amended characterization applied to the concrete
counterexample state (index 1 survives because the condition, read against
the in-pass state, is false). -/
theorem checkCollisions_step_spec_witness :
    (checkCollisionsS 800 600 [spOut, spNear])[1]? =
      some (if sElimCond 800 600 (checkCollisionsUpTo 800 600 [spOut, spNear] 1) spNear
            then eliminatePlayerS spNear else spNear) :=
  (checkCollisions_step_spec 800 600 [spOut, spNear] 1 spNear rfl rfl).1

/-! ## Flood-fill shape lemma (shared by C3 and C7) -/

/-- The writes of the claim-grid fold in `claimTerritory`: cells off the
trail keep their owner. -/
theorem claimGridFold_notMem (pid : ℕ) :
    ∀ (l : List Cell) (g0 : Cell → ℕ) (c : Cell), c ∉ l →
      l.foldl (fun g2 pos => fun d => if d = pos then pid else g2 d) g0 c = g0 c := by
  intro l
  induction l with
  | nil => intro g0 c _; rfl
  | cons pos l ih =>
    intro g0 c hc
    rw [List.foldl_cons]
    rw [ih _ c (fun h => hc (List.mem_cons_of_mem _ h))]
    have hne : c ≠ pos := fun h => hc (by rw [h]; exact List.mem_cons_self _ _)
    rw [if_neg hne]

/-- The claim-grid fold in `claimTerritory` gives every trail cell the
claiming player's id. -/
theorem claimGridFold_mem (pid : ℕ) :
    ∀ (l : List Cell) (g0 : Cell → ℕ) (c : Cell), c ∈ l →
      l.foldl (fun g2 pos => fun d => if d = pos then pid else g2 d) g0 c = pid := by
  intro l
  induction l with
  | nil => intro g0 c hc; cases hc
  | cons pos l ih =>
    intro g0 c hc
    rw [List.foldl_cons]
    by_cases hcl : c ∈ l
    · exact ih _ c hcl
    · have hcp : c = pos := by
        rcases List.mem_cons.mp hc with h | h
        · exact h
        · exact absurd h hcl
      rw [claimGridFold_notMem pid l _ c hcl, hcp, if_pos rfl]

/-- `floodFillTerritory` only ever writes `pid` into the grid and only ever
adds to the territory: the result is the input grid overwritten with `pid` on
some claimed set `C`, and the input territory united with that same `C`. -/
theorem floodFillTerritory_shape (W H : ℤ) (pid : ℕ) (g : Cell → ℕ)
    (T : Finset Cell) :
    ∃ C : Finset Cell,
      (floodFillTerritory W H pid g T).grid =
        (fun c => if c ∈ C then pid else g c) ∧
      (floodFillTerritory W H pid g T).territory = T ∪ C := by
  have main : ∀ (L : List Cell) (s : FFState),
      (∃ C : Finset Cell,
        s.grid = (fun c => if c ∈ C then pid else g c) ∧ s.territory = T ∪ C) →
      (∃ C : Finset Cell,
        (L.foldl (floodFillCell W H pid) s).grid =
          (fun c => if c ∈ C then pid else g c) ∧
        (L.foldl (floodFillCell W H pid) s).territory = T ∪ C) := by
    intro L
    induction L with
    | nil => intro s hs; exact hs
    | cons e L ih =>
      intro s hs
      rw [List.foldl_cons]
      refine ih _ ?_
      obtain ⟨C, hg, ht⟩ := hs
      rw [floodFillCell]
      by_cases h1 : s.grid e = 0 ∧ e ∉ s.visited
      · rw [if_pos h1]
        dsimp only
        by_cases hTB :
            regionTouchesBorder W H (getConnectedRegion s.grid W H s.visited e)
        · rw [if_pos hTB]
          exact ⟨C, hg, ht⟩
        · rw [if_neg hTB]
          refine ⟨C ∪ getConnectedRegion s.grid W H s.visited e, ?_, ?_⟩
          · funext c
            show (if c ∈ getConnectedRegion s.grid W H s.visited e then pid
                else s.grid c) = _
            by_cases hc : c ∈ getConnectedRegion s.grid W H s.visited e
            · rw [if_pos hc, if_pos (Finset.mem_union_right _ hc)]
            · rw [if_neg hc, congrFun hg c]
              by_cases hcC : c ∈ C
              · rw [if_pos hcC, if_pos (Finset.mem_union_left _ hcC)]
              · rw [if_neg hcC,
                  if_neg (by simp [Finset.mem_union, hc, hcC])]
          · show s.territory ∪ _ = _
            rw [ht, Finset.union_assoc]
      · rw [if_neg h1]
        exact ⟨C, hg, ht⟩
  refine main (cellList W H) ⟨g, T, ∅⟩ ⟨∅, ?_, ?_⟩ <;> simp

/-! ## C3: Grid claim on return to territory -/

/-- The trail of a Grid player at the moment `claimTerritory` runs inside
`movePlayer`: the previous trail, extended by the left cell when that cell
was outside the territory. -/
def movedTrail (p : GPlayer) : List Cell :=
  if (p.x, p.y) ∈ p.territory then p.trail else p.trail ++ [(p.x, p.y)]

/-- C3.  Grid engine: when a player moves onto a cell of its own territory
while its trail is non-empty (and the move is valid), the claim runs: the
resulting state is exactly the flood-fill state built from the grid with
every trail cell's owner set to the player's id and from the territory united
with the trail cells; every trail cell ends with grid owner `p.id` and inside
the player's territory set, and the player's trail is empty immediately
afterwards. -/
theorem movePlayer_claim_spec (W H : ℤ) (g : Cell → ℕ) (ps : List GPlayer)
    (i : ℕ) (p : GPlayer) (hp : ps[i]? = some p)
    (hvalid : isValidMove W H g ps p (p.x + p.dirX) (p.y + p.dirY) = true)
    (hterr : (p.x + p.dirX, p.y + p.dirY) ∈ p.territory)
    (htrail : p.trail ≠ []) :
    ∃ ff : FFState,
      ff = floodFillTerritory W H p.id
          ((movedTrail p).foldl
            (fun g2 pos => fun d => if d = pos then p.id else g2 d) g)
          (p.territory ∪ (movedTrail p).toFinset) ∧
      movePlayerG W H (g, ps) i =
        (ff.grid,
          ps.set i { p with x := p.x + p.dirX, y := p.y + p.dirY,
                            trail := [], territory := ff.territory }) ∧
      (∀ c ∈ movedTrail p, ff.grid c = p.id ∧ c ∈ ff.territory) := by
  refine ⟨_, rfl, ?_, ?_⟩
  · -- the state equation
    show movePlayerG W H (g, ps) i = _
    rw [movePlayerG]
    simp only [hp]
    rw [if_neg (by simp [hvalid])]
    have hmt : movedTrail p ≠ [] := by
      rw [movedTrail]
      split_ifs
      · exact htrail
      · simp
    by_cases hin : (p.x, p.y) ∈ p.territory
    · rw [if_pos hin]
      rw [if_pos ⟨hterr, by simpa [movedTrail, hin] using hmt⟩]
      rw [claimTerritory, if_neg (by simpa [movedTrail, hin] using hmt)]
      simp only [movedTrail, hin, if_pos]
    · rw [if_neg hin]
      rw [if_pos ⟨hterr, by simp [movedTrail, hin]⟩]
      rw [claimTerritory, if_neg (by simp [movedTrail, hin])]
      simp only [movedTrail, hin, if_neg]
      rfl
  · -- every claimed trail cell is owned and in the territory
    intro c hc
    obtain ⟨C, hg, ht⟩ := floodFillTerritory_shape W H p.id
      ((movedTrail p).foldl
        (fun g2 pos => fun d => if d = pos then p.id else g2 d) g)
      (p.territory ∪ (movedTrail p).toFinset)
    constructor
    · rw [hg]
      by_cases hcC : c ∈ C
      · simp [hcC]
      · simp only [hcC, if_neg, ite_false]
        exact claimGridFold_mem p.id (movedTrail p) g c hc
    · rw [ht]
      exact Finset.mem_union_left _
        (Finset.mem_union_right _ (List.mem_toFinset.mpr hc))

/-- Concrete state for the C3 witness: a player one step below its single
territory cell, with a one-cell trail, on an empty 3×3 board. -/
def gpClaim : GPlayer :=
  { id := 1, x := 0, y := 0, dirX := 0, dirY := 1, trail := [(1, 1)],
    territory := {(0, 1)}, alive := true, isHuman := true,
    lastMoveTime := 0, moveInterval := 100 }

/-- C3 witness: the claim theorem at the concrete state. -/
theorem movePlayer_claim_spec_witness :
    ∃ ff : FFState,
      ff = floodFillTerritory 3 3 gpClaim.id
          ((movedTrail gpClaim).foldl
            (fun g2 pos => fun d => if d = pos then gpClaim.id else g2 d)
            (fun _ => 0)) (gpClaim.territory ∪ (movedTrail gpClaim).toFinset) ∧
      movePlayerG 3 3 (fun _ => 0, [gpClaim]) 0 =
        (ff.grid,
          [gpClaim].set 0
            { gpClaim with x := gpClaim.x + gpClaim.dirX,
                           y := gpClaim.y + gpClaim.dirY,
                           trail := [], territory := ff.territory }) ∧
      (∀ c ∈ movedTrail gpClaim, ff.grid c = gpClaim.id ∧ c ∈ ff.territory) :=
  movePlayer_claim_spec 3 3 (fun _ => 0) [gpClaim] 0 gpClaim rfl (by decide)
    (by decide) (by decide)

/-! ## C1: flood-fill correctness — connectivity -/

/-- In-bounds cell of the Grid board. -/
def inBoundsCell (W H : ℤ) (c : Cell) : Prop :=
  0 ≤ c.1 ∧ c.1 < W ∧ 0 ≤ c.2 ∧ c.2 < H

instance (W H : ℤ) (c : Cell) : Decidable (inBoundsCell W H c) := by
  unfold inBoundsCell
  infer_instance

/-- A free cell: in bounds and unowned (`grid` value 0). -/
def freeCell (g : Cell → ℕ) (W H : ℤ) (c : Cell) : Prop :=
  inBoundsCell W H c ∧ g c = 0

instance (g : Cell → ℕ) (W H : ℤ) (c : Cell) : Decidable (freeCell g W H c) := by
  unfold freeCell
  infer_instance

/-- 4-adjacency of board cells. -/
def adjCell (c d : Cell) : Prop :=
  d = (c.1 + 1, c.2) ∨ d = (c.1 - 1, c.2) ∨ d = (c.1, c.2 + 1) ∨ d = (c.1, c.2 - 1)

/-- One connectivity step between two free cells. -/
def freeRel (g : Cell → ℕ) (W H : ℤ) (a b : Cell) : Prop :=
  freeCell g W H a ∧ freeCell g W H b ∧ adjCell a b

/-- `d` lies in the 4-connected unowned region of `c` (the mathematical
reading of the spec's "4-connected region of unowned cells"). -/
def reachesFree (g : Cell → ℕ) (W H : ℤ) (c d : Cell) : Prop :=
  Relation.ReflTransGen (freeRel g W H) c d

/-- The neighbour list pushed by `getConnectedRegion` (topmost first). -/
def nbrs (c : Cell) : List Cell :=
  [(c.1, c.2 - 1), (c.1, c.2 + 1), (c.1 - 1, c.2), (c.1 + 1, c.2)]

theorem adjCell_symm {c d : Cell} (h : adjCell c d) : adjCell d c := by
  obtain ⟨cx, cy⟩ := c
  obtain ⟨dx, dy⟩ := d
  simp only [adjCell, Prod.mk.injEq] at h ⊢
  omega

theorem freeRel_symm (g : Cell → ℕ) (W H : ℤ) : Symmetric (freeRel g W H) :=
  fun _ _ h => ⟨h.2.1, h.1, adjCell_symm h.2.2⟩

theorem reachesFree_symm {g : Cell → ℕ} {W H : ℤ} {a b : Cell}
    (h : reachesFree g W H a b) : reachesFree g W H b a :=
  Relation.ReflTransGen.symmetric (freeRel_symm g W H) h

theorem reachesFree_free {g : Cell → ℕ} {W H : ℤ} {a b : Cell}
    (h : reachesFree g W H a b) (ha : freeCell g W H a) : freeCell g W H b := by
  induction h with
  | refl => exact ha
  | tail _ hr _ => exact hr.2.1

theorem mem_nbrs_iff {c d : Cell} : d ∈ nbrs c ↔ adjCell c d := by
  simp [nbrs, adjCell, or_assoc, or_comm, or_left_comm]

/-- The finite pool of free unvisited cells, bounding the flood-fill work. -/
def freePool (g : Cell → ℕ) (W H : ℤ) (visited : Finset Cell) : Finset Cell :=
  ((Finset.Icc 0 (W - 1)) ×ˢ (Finset.Icc 0 (H - 1))).filter
    fun c => g c = 0 ∧ c ∉ visited

theorem mem_freePool_iff {g : Cell → ℕ} {W H : ℤ} {visited : Finset Cell}
    {c : Cell} :
    c ∈ freePool g W H visited ↔ freeCell g W H c ∧ c ∉ visited := by
  obtain ⟨x, y⟩ := c
  simp only [freePool, Finset.mem_filter, Finset.mem_product, Finset.mem_Icc,
    freeCell, inBoundsCell]
  constructor
  · rintro ⟨⟨⟨h1, h2⟩, h3, h4⟩, h5, h6⟩
    exact ⟨⟨⟨h1, by omega, h3, by omega⟩, h5⟩, h6⟩
  · rintro ⟨⟨⟨h1, h2, h3, h4⟩, h5⟩, h6⟩
    exact ⟨⟨⟨h1, by omega⟩, h3, by omega⟩, h5, h6⟩

theorem freePool_card_le (g : Cell → ℕ) (W H : ℤ) (visited : Finset Cell) :
    (freePool g W H visited).card ≤ W.toNat * H.toNat := by
  calc (freePool g W H visited).card
      ≤ ((Finset.Icc (0:ℤ) (W - 1)) ×ˢ (Finset.Icc (0:ℤ) (H - 1))).card :=
        Finset.card_filter_le _ _
    _ = W.toNat * H.toNat := by
        rw [Finset.card_product, Int.card_Icc, Int.card_Icc]
        norm_num

/-- Worklist invariant proof for `regionGo`: with enough fuel (measured by
the stack size plus four times the remaining free pool), the loop returns a
set that contains the region accumulator, consists of free unvisited cells
reachable from `c0`, and is closed under free adjacency modulo `visited`. -/
theorem regionGo_master (g : Cell → ℕ) (W H : ℤ) (visited : Finset Cell)
    (c0 : Cell) :
    ∀ (fuel : ℕ) (stack : List Cell) (region : Finset Cell),
      (∀ x ∈ region, freeCell g W H x ∧ x ∉ visited ∧ reachesFree g W H c0 x) →
      (∀ s ∈ stack, freeCell g W H s → s ∉ visited → s ∉ region →
        reachesFree g W H c0 s) →
      (∀ x ∈ region, ∀ d, adjCell x d → freeCell g W H d →
        d ∈ visited ∨ d ∈ region ∨ d ∈ stack) →
      stack.length + 4 * ((freePool g W H visited) \ region).card ≤ fuel →
      (region ⊆ regionGo g W H visited fuel stack region) ∧
      (∀ x ∈ regionGo g W H visited fuel stack region,
        freeCell g W H x ∧ x ∉ visited ∧ reachesFree g W H c0 x) ∧
      (∀ x ∈ regionGo g W H visited fuel stack region, ∀ d, adjCell x d →
        freeCell g W H d →
        d ∈ visited ∨ d ∈ regionGo g W H visited fuel stack region) := by
  intro fuel
  induction fuel with
  | zero =>
    intro stack region inv1 inv2 inv3 hfuel
    have hstack : stack = [] := by
      cases stack with
      | nil => rfl
      | cons a l =>
        exfalso
        simp only [List.length_cons] at hfuel
        omega
    subst hstack
    refine ⟨fun x hx => hx, inv1, ?_⟩
    intro x hx d hadj hdf
    rcases inv3 x hx d hadj hdf with h | h | h
    · exact Or.inl h
    · exact Or.inr h
    · cases h
  | succ fuel ih =>
    intro stack region inv1 inv2 inv3 hfuel
    cases stack with
    | nil =>
      refine ⟨fun x hx => hx, inv1, ?_⟩
      intro x hx d hadj hdf
      rcases inv3 x hx d hadj hdf with h | h | h
      · exact Or.inl h
      · exact Or.inr h
      · cases h
    | cons c rest =>
      by_cases h1 : c ∈ visited ∨ c ∈ region
      · have hred : regionGo g W H visited (fuel + 1) (c :: rest) region =
            regionGo g W H visited fuel rest region := by
          simp only [regionGo, if_pos h1]
        rw [hred]
        refine ih rest region inv1 ?_ ?_ ?_
        · intro s hs hf hnv hnr
          exact inv2 s (List.mem_cons_of_mem _ hs) hf hnv hnr
        · intro x hx d hadj hdf
          rcases inv3 x hx d hadj hdf with h | h | h
          · exact Or.inl h
          · exact Or.inr (Or.inl h)
          · rcases List.mem_cons.mp h with h | h
            · subst h
              rcases h1 with h1 | h1
              · exact Or.inl h1
              · exact Or.inr (Or.inl h1)
            · exact Or.inr (Or.inr h)
        · simp only [List.length_cons] at hfuel
          omega
      · by_cases h2 : c.1 < 0 ∨ W ≤ c.1 ∨ c.2 < 0 ∨ H ≤ c.2
        · have hred : regionGo g W H visited (fuel + 1) (c :: rest) region =
              regionGo g W H visited fuel rest region := by
            simp only [regionGo, if_neg h1, if_pos h2]
          rw [hred]
          refine ih rest region inv1 ?_ ?_ ?_
          · intro s hs hf hnv hnr
            exact inv2 s (List.mem_cons_of_mem _ hs) hf hnv hnr
          · intro x hx d hadj hdf
            rcases inv3 x hx d hadj hdf with h | h | h
            · exact Or.inl h
            · exact Or.inr (Or.inl h)
            · rcases List.mem_cons.mp h with h | h
              · exfalso
                subst h
                obtain ⟨⟨hb1, hb2, hb3, hb4⟩, _⟩ := hdf
                omega
              · exact Or.inr (Or.inr h)
          · simp only [List.length_cons] at hfuel
            omega
        · by_cases h3 : g c ≠ 0
          · have hred : regionGo g W H visited (fuel + 1) (c :: rest) region =
                regionGo g W H visited fuel rest region := by
              simp only [regionGo, if_neg h1, if_neg h2, if_pos h3]
            rw [hred]
            refine ih rest region inv1 ?_ ?_ ?_
            · intro s hs hf hnv hnr
              exact inv2 s (List.mem_cons_of_mem _ hs) hf hnv hnr
            · intro x hx d hadj hdf
              rcases inv3 x hx d hadj hdf with h | h | h
              · exact Or.inl h
              · exact Or.inr (Or.inl h)
              · rcases List.mem_cons.mp h with h | h
                · exfalso
                  subst h
                  exact h3 hdf.2
                · exact Or.inr (Or.inr h)
            · simp only [List.length_cons] at hfuel
              omega
          · -- the cell is recorded and its neighbours pushed
            push_neg at h2
            have hcfree : freeCell g W H c := by
              refine ⟨⟨?_, ?_, ?_, ?_⟩, ?_⟩ <;> omega
            have hnv : c ∉ visited := fun h => h1 (Or.inl h)
            have hnr : c ∉ region := fun h => h1 (Or.inr h)
            have hreach : reachesFree g W H c0 c :=
              inv2 c (List.mem_cons_self _ _) hcfree hnv hnr
            have hred : regionGo g W H visited (fuel + 1) (c :: rest) region =
                regionGo g W H visited fuel
                  ((c.1, c.2 - 1) :: (c.1, c.2 + 1) :: (c.1 - 1, c.2) ::
                    (c.1 + 1, c.2) :: rest)
                  (insert c region) := by
              simp only [regionGo, if_neg h1, if_neg h3]
              rw [if_neg]
              push_neg
              exact ⟨h2.1, h2.2.1, h2.2.2.1, h2.2.2.2⟩
            rw [hred]
            have hpost := ih
              ((c.1, c.2 - 1) :: (c.1, c.2 + 1) :: (c.1 - 1, c.2) ::
                (c.1 + 1, c.2) :: rest)
              (insert c region) ?_ ?_ ?_ ?_
            · exact ⟨fun x hx => hpost.1 (Finset.mem_insert_of_mem hx),
                hpost.2.1, hpost.2.2⟩
            · -- region invariant
              intro x hx
              rcases Finset.mem_insert.mp hx with h | h
              · subst h
                exact ⟨hcfree, hnv, hreach⟩
              · exact inv1 x h
            · -- stack invariant
              intro s hs hf hsnv hsnr
              have hsnr2 : s ∉ region := fun h => hsnr (Finset.mem_insert_of_mem h)
              simp only [List.mem_cons] at hs
              rcases hs with h | h | h | h | h
              · exact hreach.tail ⟨hcfree, hf, by subst h; simp [adjCell]⟩
              · exact hreach.tail ⟨hcfree, hf, by subst h; simp [adjCell]⟩
              · exact hreach.tail ⟨hcfree, hf, by subst h; simp [adjCell]⟩
              · exact hreach.tail ⟨hcfree, hf, by subst h; simp [adjCell]⟩
              · exact inv2 s (List.mem_cons_of_mem _ h) hf hsnv hsnr2
            · -- closure invariant
              intro x hx d hadj hdf
              rcases Finset.mem_insert.mp hx with h | h
              · subst h
                refine Or.inr (Or.inr ?_)
                rcases hadj with h | h | h | h <;>
                  simp [List.mem_cons, h]
              · rcases inv3 x h d hadj hdf with hh | hh | hh
                · exact Or.inl hh
                · exact Or.inr (Or.inl (Finset.mem_insert_of_mem hh))
                · rcases List.mem_cons.mp hh with hh | hh
                  · subst hh
                    exact Or.inr (Or.inl (Finset.mem_insert_self _ _))
                  · exact Or.inr (Or.inr (by simp [List.mem_cons, hh]))
            · -- fuel bound
              have hcpool : c ∈ freePool g W H visited \ region :=
                Finset.mem_sdiff.mpr ⟨mem_freePool_iff.mpr ⟨hcfree, hnv⟩, hnr⟩
              have hcard : (freePool g W H visited \ insert c region).card =
                  (freePool g W H visited \ region).card - 1 := by
                rw [Finset.sdiff_insert, Finset.card_erase_of_mem hcpool]
              have hpos : 0 < (freePool g W H visited \ region).card :=
                Finset.card_pos.mpr ⟨c, hcpool⟩
              simp only [List.length_cons] at hfuel ⊢
              omega

/-- `getConnectedRegion` computes exactly the 4-connected free region of its
start cell, provided the incoming `visited` set is a union of free regions
(closed under free adjacency) not containing the start. -/
theorem getConnectedRegion_spec (g : Cell → ℕ) (W H : ℤ) (visited : Finset Cell)
    (c0 : Cell)
    (hvis : ∀ v ∈ visited, ∀ d, freeRel g W H v d → d ∈ visited)
    (hfree : freeCell g W H c0) (hnv : c0 ∉ visited) :
    ∀ x, x ∈ getConnectedRegion g W H visited c0 ↔ reachesFree g W H c0 x := by
  obtain ⟨⟨hb1, hb2, hb3, hb4⟩, hg0⟩ := hfree
  have hfree : freeCell g W H c0 := ⟨⟨hb1, hb2, hb3, hb4⟩, hg0⟩
  have hred : getConnectedRegion g W H visited c0 =
      regionGo g W H visited (4 * (W.toNat * H.toNat))
        ((c0.1, c0.2 - 1) :: (c0.1, c0.2 + 1) :: (c0.1 - 1, c0.2) ::
          (c0.1 + 1, c0.2) :: [])
        {c0} := by
    rw [getConnectedRegion]
    have h1 : 1 + 4 * (W.toNat * H.toNat) = 4 * (W.toNat * H.toNat) + 1 := by
      omega
    rw [h1]
    simp only [regionGo]
    rw [if_neg (by simp [hnv]), if_neg (by push_neg; exact ⟨hb1, hb2, hb3, hb4⟩),
      if_neg (by simp [hg0])]
    rfl
  rw [hred]
  have hpost := regionGo_master g W H visited c0 (4 * (W.toNat * H.toNat))
    ((c0.1, c0.2 - 1) :: (c0.1, c0.2 + 1) :: (c0.1 - 1, c0.2) ::
      (c0.1 + 1, c0.2) :: [])
    {c0} ?_ ?_ ?_ ?_
  · obtain ⟨hsub, hchar, hclosed⟩ := hpost
    have hc0R : c0 ∈ regionGo g W H visited (4 * (W.toNat * H.toNat))
        ((c0.1, c0.2 - 1) :: (c0.1, c0.2 + 1) :: (c0.1 - 1, c0.2) ::
          (c0.1 + 1, c0.2) :: []) {c0} :=
      hsub (Finset.mem_singleton_self c0)
    intro x
    constructor
    · intro hx
      exact (hchar x hx).2.2
    · intro hx
      induction hx with
      | refl => exact hc0R
      | tail hab hr ihab =>
        rcases hclosed _ ihab _ hr.2.2 hr.2.1 with h | h
        · exact absurd (hvis _ h _ (freeRel_symm g W H hr))
            (hchar _ ihab).2.1
        · exact h
  · intro x hx
    rw [Finset.mem_singleton] at hx
    subst hx
    exact ⟨hfree, hnv, Relation.ReflTransGen.refl⟩
  · intro s hs hf _ _
    simp only [List.mem_cons] at hs
    rcases hs with h | h | h | h | h
    · exact Relation.ReflTransGen.single ⟨hfree, hf, by subst h; simp [adjCell]⟩
    · exact Relation.ReflTransGen.single ⟨hfree, hf, by subst h; simp [adjCell]⟩
    · exact Relation.ReflTransGen.single ⟨hfree, hf, by subst h; simp [adjCell]⟩
    · exact Relation.ReflTransGen.single ⟨hfree, hf, by subst h; simp [adjCell]⟩
    · cases h
  · intro x hx d hadj hdf
    rw [Finset.mem_singleton] at hx
    subst hx
    refine Or.inr (Or.inr ?_)
    rcases hadj with h | h | h | h <;> simp [List.mem_cons, h]
  · have hcpool : c0 ∈ freePool g W H visited \ (∅ : Finset Cell) := by
      rw [Finset.sdiff_empty]
      exact mem_freePool_iff.mpr ⟨hfree, hnv⟩
    have hcard : (freePool g W H visited \ ({c0} : Finset Cell)).card =
        (freePool g W H visited).card - 1 := by
      have : ({c0} : Finset Cell) = insert c0 ∅ := by simp
      rw [this, Finset.sdiff_insert, Finset.sdiff_empty,
        Finset.card_erase_of_mem (by rw [Finset.sdiff_empty] at hcpool; exact hcpool)]
    have hpos : 0 < (freePool g W H visited).card :=
      Finset.card_pos.mpr ⟨c0, by rw [Finset.sdiff_empty] at hcpool; exact hcpool⟩
    have hle := freePool_card_le g W H visited
    simp only [List.length_cons, List.length_nil]
    omega

/-- A cell is enclosed when its 4-connected unowned region never reaches a
border cell of the board. -/
def enclosedCell (g : Cell → ℕ) (W H : ℤ) (c : Cell) : Prop :=
  ¬ ∃ d, reachesFree g W H c d ∧ isBorderCell W H d

/-- Loop invariant of `floodFillTerritory` over the original grid `g0` and
territory `T0`: the visited set is a union of free regions of `g0`, closed
under free adjacency, whose enclosed members are exactly the claimed set `C`;
the current grid is `g0` overwritten with `pid` on `C`, and the current
territory is `T0 ∪ C`. -/
def FFInv (W H : ℤ) (pid : ℕ) (g0 : Cell → ℕ) (T0 : Finset Cell)
    (s : FFState) : Prop :=
  (∀ v ∈ s.visited, freeCell g0 W H v) ∧
  (∀ v ∈ s.visited, ∀ d, freeRel g0 W H v d → d ∈ s.visited) ∧
  (∃ C : Finset Cell,
    s.grid = (fun c => if c ∈ C then pid else g0 c) ∧
    s.territory = T0 ∪ C ∧
    C ⊆ s.visited ∧
    (∀ x ∈ s.visited, (enclosedCell g0 W H x ↔ x ∈ C)))

/-- One cell of the `floodFillTerritory` double loop preserves the invariant,
grows the visited set, and — when the cell is free in the original grid —
leaves it visited. -/
theorem floodFillCell_inv (W H : ℤ) (pid : ℕ) (g0 : Cell → ℕ) (T0 : Finset Cell)
    (s : FFState) (e : Cell) (hinv : FFInv W H pid g0 T0 s)
    (he : inBoundsCell W H e) :
    FFInv W H pid g0 T0 (floodFillCell W H pid s e) ∧
    s.visited ⊆ (floodFillCell W H pid s e).visited ∧
    (freeCell g0 W H e → e ∈ (floodFillCell W H pid s e).visited) := by
  obtain ⟨hvf, hvc, C, hg, ht, hCs, hout⟩ := hinv
  by_cases hcond : s.grid e = 0 ∧ e ∉ s.visited
  case neg =>
    have hstep : floodFillCell W H pid s e = s := by
      rw [floodFillCell, if_neg hcond]
    rw [hstep]
    refine ⟨⟨hvf, hvc, C, hg, ht, hCs, hout⟩, Finset.Subset.refl _, ?_⟩
    intro hef
    by_cases hev : e ∈ s.visited
    · exact hev
    · exfalso
      apply hcond
      refine ⟨?_, hev⟩
      rw [hg]
      have heC : e ∉ C := fun h => hev (hCs h)
      simp [heC, hef.2]
  case pos =>
    obtain ⟨hge, hev⟩ := hcond
    have hfree_to0 : ∀ c, freeCell s.grid W H c → freeCell g0 W H c := by
      rintro c ⟨hbc, h0⟩
      refine ⟨hbc, ?_⟩
      rw [hg] at h0
      by_cases hc : c ∈ C
      · exact (hvf c (hCs hc)).2
      · simpa [hc] using h0
    have hfree_of0 : ∀ c, freeCell g0 W H c → c ∉ s.visited →
        freeCell s.grid W H c := by
      intro c hc hcv
      refine ⟨hc.1, ?_⟩
      rw [hg]
      have hnc : c ∉ C := fun h => hcv (hCs h)
      simpa [hnc] using hc.2
    have hefree : freeCell s.grid W H e := ⟨he, hge⟩
    have hefree0 : freeCell g0 W H e := hfree_to0 e hefree
    have hvc_g : ∀ v ∈ s.visited, ∀ d, freeRel s.grid W H v d → d ∈ s.visited :=
      fun v hv d hrel =>
        hvc v hv d ⟨hfree_to0 _ hrel.1, hfree_to0 _ hrel.2.1, hrel.2.2⟩
    have hspec := getConnectedRegion_spec s.grid W H s.visited e hvc_g hefree hev
    have hto0 : ∀ d, reachesFree s.grid W H e d → reachesFree g0 W H e d :=
      fun d hd => Relation.ReflTransGen.mono
        (fun a b hab => ⟨hfree_to0 _ hab.1, hfree_to0 _ hab.2.1, hab.2.2⟩) hd
    have hof0 : ∀ d, reachesFree g0 W H e d →
        reachesFree s.grid W H e d ∧ d ∉ s.visited := by
      intro d hd
      induction hd with
      | refl => exact ⟨Relation.ReflTransGen.refl, hev⟩
      | tail hab hr ih =>
        have hdnv : _ ∉ s.visited := fun hmem =>
          ih.2 (hvc _ hmem _ (freeRel_symm g0 W H hr))
        exact ⟨ih.1.tail ⟨hfree_of0 _ hr.1 ih.2, hfree_of0 _ hr.2.1 hdnv, hr.2.2⟩,
          hdnv⟩
    have hregion : ∀ x, x ∈ getConnectedRegion s.grid W H s.visited e ↔
        reachesFree g0 W H e x := by
      intro x
      rw [hspec x]
      exact ⟨hto0 x, fun h => (hof0 x h).1⟩
    have hRnv : ∀ x ∈ getConnectedRegion s.grid W H s.visited e,
        x ∉ s.visited := fun x hx => (hof0 x ((hregion x).mp hx)).2
    have hRfree0 : ∀ x ∈ getConnectedRegion s.grid W H s.visited e,
        freeCell g0 W H x := fun x hx =>
      reachesFree_free ((hregion x).mp hx) hefree0
    have hclosR : ∀ v ∈ getConnectedRegion s.grid W H s.visited e,
        ∀ d, freeRel g0 W H v d →
          d ∈ getConnectedRegion s.grid W H s.visited e := by
      intro v hv d hrel
      exact (hregion d).mpr (((hregion v).mp hv).tail hrel)
    have heR : e ∈ getConnectedRegion s.grid W H s.visited e :=
      (hregion e).mpr Relation.ReflTransGen.refl
    rw [floodFillCell, if_pos ⟨hge, hev⟩]
    dsimp only
    by_cases hTBc : regionTouchesBorder W H (getConnectedRegion s.grid W H s.visited e)
    · rw [if_pos hTBc]
      refine ⟨⟨?_, ?_, C, hg, ht,
          hCs.trans Finset.subset_union_left, ?_⟩,
        Finset.subset_union_left, ?_⟩
      · intro v hv
        rcases Finset.mem_union.mp hv with h | h
        · exact hvf v h
        · exact hRfree0 v h
      · intro v hv d hrel
        rcases Finset.mem_union.mp hv with h | h
        · exact Finset.mem_union_left _ (hvc v h d hrel)
        · exact Finset.mem_union_right _ (hclosR v h d hrel)
      · intro x hx
        rcases Finset.mem_union.mp hx with h | h
        · exact hout x h
        · constructor
          · intro hencl
            exfalso
            obtain ⟨b, hb, hbb⟩ := hTBc
            exact hencl ⟨b,
              (reachesFree_symm ((hregion x).mp h)).trans ((hregion b).mp hb),
              hbb⟩
          · intro hxC
            exact absurd (hCs hxC) (hRnv x h)
      · intro _
        exact Finset.mem_union_right _ heR
    · rw [if_neg hTBc]
      refine ⟨⟨?_, ?_, C ∪ getConnectedRegion s.grid W H s.visited e,
          ?_, ?_, Finset.union_subset_union hCs (Finset.Subset.refl _), ?_⟩,
        Finset.subset_union_left, ?_⟩
      · intro v hv
        rcases Finset.mem_union.mp hv with h | h
        · exact hvf v h
        · exact hRfree0 v h
      · intro v hv d hrel
        rcases Finset.mem_union.mp hv with h | h
        · exact Finset.mem_union_left _ (hvc v h d hrel)
        · exact Finset.mem_union_right _ (hclosR v h d hrel)
      · funext c
        show (if c ∈ getConnectedRegion s.grid W H s.visited e then pid
            else s.grid c) = _
        by_cases hc : c ∈ getConnectedRegion s.grid W H s.visited e
        · rw [if_pos hc, if_pos (Finset.mem_union_right _ hc)]
        · rw [if_neg hc, congrFun hg c]
          by_cases hcC : c ∈ C
          · rw [if_pos hcC, if_pos (Finset.mem_union_left _ hcC)]
          · rw [if_neg hcC, if_neg (by simp [hc, hcC])]
      · show s.territory ∪ _ = _
        rw [ht, Finset.union_assoc]
      · intro x hx
        rcases Finset.mem_union.mp hx with h | h
        · have hxR : x ∉ getConnectedRegion s.grid W H s.visited e :=
            fun hr => (hRnv x hr) h
          rw [Finset.mem_union]
          constructor
          · intro hencl
            exact Or.inl ((hout x h).mp hencl)
          · rintro (hc | hc)
            · exact (hout x h).mpr hc
            · exact absurd hc hxR
        · rw [Finset.mem_union]
          refine ⟨fun _ => Or.inr h, fun _ => ?_⟩
          rintro ⟨d, hxd, hbd⟩
          exact hTBc ⟨d, (hregion d).mpr (((hregion x).mp h).trans hxd), hbd⟩
      · intro _
        exact Finset.mem_union_right _ heR

/-- The whole `floodFillTerritory` loop preserves the invariant and grows the
visited set. -/
theorem floodFillLoop_inv (W H : ℤ) (pid : ℕ) (g0 : Cell → ℕ) (T0 : Finset Cell) :
    ∀ (L : List Cell) (s : FFState), FFInv W H pid g0 T0 s →
      (∀ e ∈ L, inBoundsCell W H e) →
      FFInv W H pid g0 T0 (L.foldl (floodFillCell W H pid) s) ∧
      s.visited ⊆ (L.foldl (floodFillCell W H pid) s).visited := by
  intro L
  induction L with
  | nil =>
    intro s hs _
    exact ⟨hs, Finset.Subset.refl _⟩
  | cons e L ih =>
    intro s hs hb
    rw [List.foldl_cons]
    have hstep := floodFillCell_inv W H pid g0 T0 s e hs
      (hb e (List.mem_cons_self _ _))
    have hrest := ih (floodFillCell W H pid s e) hstep.1
      fun x hx => hb x (List.mem_cons_of_mem _ hx)
    exact ⟨hrest.1, hstep.2.1.trans hrest.2⟩

/-- Every free cell the loop passes over ends up visited. -/
theorem floodFillLoop_progress (W H : ℤ) (pid : ℕ) (g0 : Cell → ℕ)
    (T0 : Finset Cell) :
    ∀ (L : List Cell) (s : FFState), FFInv W H pid g0 T0 s →
      (∀ e ∈ L, inBoundsCell W H e) →
      ∀ c ∈ L, freeCell g0 W H c →
        c ∈ (L.foldl (floodFillCell W H pid) s).visited := by
  intro L
  induction L with
  | nil =>
    intro s _ _ c hc
    cases hc
  | cons e L ih =>
    intro s hs hb c hc hcf
    rw [List.foldl_cons]
    have hstep := floodFillCell_inv W H pid g0 T0 s e hs
      (hb e (List.mem_cons_self _ _))
    rcases List.mem_cons.mp hc with h | h
    · subst h
      exact (floodFillLoop_inv W H pid g0 T0 L _ hstep.1
        fun x hx => hb x (List.mem_cons_of_mem _ hx)).2 (hstep.2.2 hcf)
    · exact ih _ hstep.1 (fun x hx => hb x (List.mem_cons_of_mem _ hx)) c h hcf

/-- The double loop of `floodFillTerritory` enumerates exactly the in-bounds
cells. -/
theorem mem_cellList_iff {W H : ℤ} {c : Cell} :
    c ∈ cellList W H ↔ inBoundsCell W H c := by
  obtain ⟨x, y⟩ := c
  constructor
  · intro h
    rw [cellList] at h
    obtain ⟨a, ha, hmem⟩ := List.mem_flatMap.mp h
    obtain ⟨b, hb, heq⟩ := List.mem_map.mp hmem
    rw [List.mem_range] at ha hb
    rw [Prod.mk.injEq] at heq
    obtain ⟨h1, h2⟩ := heq
    refine ⟨?_, ?_, ?_, ?_⟩ <;> omega
  · rintro ⟨h1, h2, h3, h4⟩
    have hx : x.toNat ∈ List.range W.toNat := List.mem_range.mpr (by omega)
    have hy : y.toNat ∈ List.range H.toNat := List.mem_range.mpr (by omega)
    have hmem : ((x.toNat : ℤ), (y.toNat : ℤ)) ∈ cellList W H := by
      rw [cellList]
      exact List.mem_flatMap.mpr
        ⟨x.toNat, hx, List.mem_map.mpr ⟨y.toNat, hy, rfl⟩⟩
    rw [Int.toNat_of_nonneg h1, Int.toNat_of_nonneg h3] at hmem
    exact hmem

/-- C1.  Grid flood fill after a claim: for every unowned cell of the board,
if its 4-connected unowned region (`reachesFree`) contains no border cell,
the cell's owner becomes the claiming player's id and the cell is added to
that player's territory set; if the region contains a border cell, the cell's
owner is unchanged (still 0).  Quantifying over the cells of a region is the
same as quantifying over unowned cells, each paired with its own region. -/
theorem floodFillTerritory_spec (W H : ℤ) (pid : ℕ) (g : Cell → ℕ)
    (T : Finset Cell) (c : Cell) (hc : freeCell g W H c) :
    ((∃ d, reachesFree g W H c d ∧ isBorderCell W H d) →
        (floodFillTerritory W H pid g T).grid c = 0) ∧
    (enclosedCell g W H c →
        (floodFillTerritory W H pid g T).grid c = pid ∧
        c ∈ (floodFillTerritory W H pid g T).territory) := by
  have hinv0 : FFInv W H pid g T ⟨g, T, ∅⟩ := by
    refine ⟨?_, ?_, ∅, ?_, ?_, ?_, ?_⟩ <;> simp
  have hbounds : ∀ e ∈ cellList W H, inBoundsCell W H e := fun e he =>
    mem_cellList_iff.mp he
  have hdef : floodFillTerritory W H pid g T =
      (cellList W H).foldl (floodFillCell W H pid) ⟨g, T, ∅⟩ := rfl
  have hloop := floodFillLoop_inv W H pid g T (cellList W H) ⟨g, T, ∅⟩
    hinv0 hbounds
  have hprog := floodFillLoop_progress W H pid g T (cellList W H) ⟨g, T, ∅⟩
    hinv0 hbounds c (mem_cellList_iff.mpr hc.1) hc
  obtain ⟨⟨_, _, C, hg, ht, _, hout⟩, _⟩ := hloop
  constructor
  · intro hborder
    have hnc : c ∉ C := fun hcC => ((hout c hprog).mpr hcC) hborder
    rw [hdef, congrFun hg c, if_neg hnc]
    exact hc.2
  · intro hencl
    have hcC : c ∈ C := (hout c hprog).mp hencl
    constructor
    · rw [hdef, congrFun hg c, if_pos hcC]
    · rw [hdef, ht]
      exact Finset.mem_union_right _ hcC

/-- C1 witness: on an all-unowned 3×3 board, the region of the corner cell
contains the (border) corner itself, so the fill leaves its owner 0. -/
theorem floodFillTerritory_spec_witness :
    freeCell (fun _ => 0) 3 3 (0, 0) ∧
    (floodFillTerritory 3 3 7 (fun _ => 0) ∅).grid (0, 0) = 0 :=
  ⟨by decide,
   (floodFillTerritory_spec 3 3 7 (fun _ => 0) ∅ (0, 0) (by decide)).1
     ⟨(0, 0), Relation.ReflTransGen.refl, by decide⟩⟩

/-! ## C7: territory monotonicity -/

/-- Index-wise monotonicity relation on Grid player lists: ids are stable and
territories only grow. -/
abbrev GRel (ps qs : List GPlayer) : Prop :=
  ∀ (j : ℕ) (p : GPlayer), ps[j]? = some p →
    ∃ q : GPlayer, qs[j]? = some q ∧ p.id = q.id ∧ p.territory ⊆ q.territory

theorem grel_refl (ps : List GPlayer) : GRel ps ps :=
  fun _ p hp => ⟨p, hp, rfl, Finset.Subset.refl _⟩

theorem grel_trans {a b c : List GPlayer} (h1 : GRel a b) (h2 : GRel b c) :
    GRel a c := by
  intro j p hp
  obtain ⟨q, hq, hid, hsub⟩ := h1 j p hp
  obtain ⟨r, hr, hid2, hsub2⟩ := h2 j q hq
  exact ⟨r, hr, hid.trans hid2, hsub.trans hsub2⟩

/-- Replacing one entry by a player with the same id and a larger territory
respects `GRel`. -/
theorem grel_set {ps : List GPlayer} {i : ℕ} {p0 pnew : GPlayer}
    (hp0 : ps[i]? = some p0) (hid : p0.id = pnew.id)
    (hsub : p0.territory ⊆ pnew.territory) : GRel ps (ps.set i pnew) := by
  intro j p hp
  have hi : i < ps.length := (List.getElem?_eq_some.mp hp0).1
  by_cases hij : i = j
  · subst hij
    have hpp : p = p0 := by
      have := hp0.symm.trans hp
      exact (Option.some_inj.mp this).symm
    subst hpp
    exact ⟨pnew, by rw [List.getElem?_set, if_pos rfl, if_pos hi], hid, hsub⟩
  · exact ⟨p, by rw [List.getElem?_set_ne hij]; exact hp, rfl,
      Finset.Subset.refl _⟩

/-- `updateAI` (Grid) only writes the direction. -/
theorem updateAIG_fields (W H : ℤ) (g : Cell → ℕ) (ps : List GPlayer)
    (c : GAIChoice) (p : GPlayer) :
    (updateAIG W H g ps c p).id = p.id ∧
    (updateAIG W H g ps c p).territory = p.territory := by
  rw [updateAIG]
  by_cases h1 : p.dirX = 0 ∧ p.dirY = 0
  · rw [if_pos h1]
    exact ⟨rfl, rfl⟩
  · rw [if_neg h1]
    by_cases h2 : isValidMove W H g ps p (p.x + p.dirX) (p.y + p.dirY) = true ∧
        c.keep = true
    · rw [if_pos h2]
      exact ⟨rfl, rfl⟩
    · rw [if_neg h2]
      dsimp only
      by_cases h3 : (gridDirs.filter fun d =>
          isValidMove W H g ps p (p.x + d.1) (p.y + d.2) &&
            !(decide (d.1 = -p.dirX ∧ d.2 = -p.dirY))).length > 0
      · rw [if_pos h3]
        exact ⟨rfl, rfl⟩
      · rw [if_neg h3]
        exact ⟨rfl, rfl⟩

/-- `claimTerritory` keeps the player's id. -/
theorem claimTerritory_id (W H : ℤ) (g : Cell → ℕ) (p : GPlayer) :
    (claimTerritory W H g p).2.id = p.id := by
  rw [claimTerritory]
  split_ifs <;> rfl

/-- `claimTerritory` only grows the territory. -/
theorem claimTerritory_territory_sub (W H : ℤ) (g : Cell → ℕ) (p : GPlayer) :
    p.territory ⊆ (claimTerritory W H g p).2.territory := by
  rw [claimTerritory]
  split_ifs with h
  · exact Finset.Subset.refl _
  · show p.territory ⊆ (floodFillTerritory W H p.id _ _).territory
    obtain ⟨C, _, ht⟩ := floodFillTerritory_shape W H p.id
      (p.trail.foldl (fun g2 pos => fun d => if d = pos then p.id else g2 d) g)
      (p.territory ∪ p.trail.toFinset)
    rw [ht]
    exact Finset.Subset.trans Finset.subset_union_left Finset.subset_union_left

/-- Replacing one entry by the claim result of a same-id, larger-territory
player respects `GRel`. -/
theorem grel_set_claim (W H : ℤ) (g : Cell → ℕ) {ps : List GPlayer} {i : ℕ}
    {p q : GPlayer} (hp : ps[i]? = some p) (hid : p.id = q.id)
    (hsub : p.territory ⊆ q.territory) :
    GRel ps (ps.set i (claimTerritory W H g q).2) :=
  grel_set hp (hid.trans (claimTerritory_id W H g q).symm)
    (hsub.trans (claimTerritory_territory_sub W H g q))

/-- `movePlayer` (Grid) respects `GRel`. -/
theorem movePlayerG_grel (W H : ℤ) (st : (Cell → ℕ) × List GPlayer) (i : ℕ) :
    GRel st.2 (movePlayerG W H st i).2 := by
  rw [movePlayerG]
  cases hp : st.2[i]? with
  | none => exact grel_refl _
  | some p =>
    dsimp only
    by_cases hval : isValidMove W H st.1 st.2 p (p.x + p.dirX) (p.y + p.dirY)
        = false
    · rw [if_pos hval]
      rw [eliminatePlayerG_spec st.2 i p hp]
      exact grel_set hp rfl (Finset.Subset.refl _)
    · rw [if_neg hval]
      by_cases hin : (p.x, p.y) ∈ p.territory
      · rw [if_pos hin]
        by_cases hclaim : (p.x + p.dirX, p.y + p.dirY) ∈ p.territory ∧
            ¬ p.trail = []
        · rw [if_pos hclaim]
          exact grel_set_claim W H st.1 hp rfl (Finset.Subset.refl _)
        · rw [if_neg hclaim]
          exact grel_set hp rfl (Finset.Subset.refl _)
      · rw [if_neg hin]
        by_cases hclaim : (p.x + p.dirX, p.y + p.dirY) ∈ p.territory ∧
            ¬ p.trail ++ [(p.x, p.y)] = []
        · rw [if_pos hclaim]
          exact grel_set_claim W H st.1 hp rfl (Finset.Subset.refl _)
        · rw [if_neg hclaim]
          exact grel_set hp rfl (Finset.Subset.refl _)

/-- One `updatePlayers` iteration (Grid) respects `GRel`. -/
theorem updatePlayerStep_grel (W H : ℤ) (oracle : ℕ → GAIChoice) (now : ℚ)
    (st : (Cell → ℕ) × List GPlayer) (i : ℕ) :
    GRel st.2 (updatePlayerStep W H oracle now st i).2 := by
  rw [updatePlayerStep]
  cases hp : st.2[i]? with
  | none => exact grel_refl _
  | some p =>
    dsimp only
    by_cases halive : p.alive = true
    swap
    · rw [if_neg halive]
      exact grel_refl _
    rw [if_pos halive]
    by_cases htime : now - p.lastMoveTime ≥ p.moveInterval
    swap
    · rw [if_neg htime]
      exact grel_refl _
    rw [if_pos htime]
    have hst1 : ∀ st1 : (Cell → ℕ) × List GPlayer, GRel st.2 st1.2 →
        GRel st.2 (match st1.2[i]? with
          | none => st1
          | some p1 =>
            if p1.dirX ≠ 0 ∨ p1.dirY ≠ 0 then
              match (movePlayerG W H st1 i).2[i]? with
              | none => movePlayerG W H st1 i
              | some p2 =>
                ((movePlayerG W H st1 i).1,
                  (movePlayerG W H st1 i).2.set i { p2 with lastMoveTime := now })
            else st1).2 := by
      intro st1 h1
      cases hp1 : st1.2[i]? with
      | none => exact h1
      | some p1 =>
        dsimp only
        by_cases hdir : p1.dirX ≠ 0 ∨ p1.dirY ≠ 0
        swap
        · rw [if_neg hdir]
          exact h1
        rw [if_pos hdir]
        have h2 : GRel st.2 (movePlayerG W H st1 i).2 :=
          grel_trans h1 (movePlayerG_grel W H st1 i)
        cases hp2 : (movePlayerG W H st1 i).2[i]? with
        | none => exact h2
        | some p2 =>
          exact grel_trans h2 (grel_set hp2 rfl (Finset.Subset.refl _))
    by_cases hhum : p.isHuman = true
    · rw [if_pos hhum]
      exact hst1 st (grel_refl _)
    · rw [if_neg hhum]
      refine hst1 _ ?_
      exact grel_set hp (updateAIG_fields W H st.1 st.2 (oracle i) p).1.symm
        (by rw [(updateAIG_fields W H st.1 st.2 (oracle i) p).2])

/-- The whole `updatePlayers` pass (Grid) respects `GRel`. -/
theorem updatePlayersG_grel (W H : ℤ) (oracle : ℕ → GAIChoice) (now : ℚ)
    (g : Cell → ℕ) (ps : List GPlayer) :
    GRel ps (updatePlayersG W H oracle now g ps).2 := by
  rw [updatePlayersG]
  have main : ∀ (l : List ℕ) (st : (Cell → ℕ) × List GPlayer),
      GRel st.2 ((l.foldl (updatePlayerStep W H oracle now) st)).2 := by
    intro l
    induction l with
    | nil => intro st; exact grel_refl _
    | cons x xs ih =>
      intro st
      rw [List.foldl_cons]
      exact grel_trans (updatePlayerStep_grel W H oracle now st x)
        (ih (updatePlayerStep W H oracle now st x))
  exact main (List.range ps.length) (g, ps)

/-- `GRel` turned into a membership statement. -/
theorem grel_mem {ps qs : List GPlayer} (h : GRel ps qs) {p : GPlayer}
    (hp : p ∈ ps) :
    ∃ q ∈ qs, p.id = q.id ∧ p.territory ⊆ q.territory := by
  obtain ⟨n, hn, hget⟩ := List.getElem_of_mem hp
  obtain ⟨q, hq, hid, hsub⟩ := h n p (by rw [List.getElem?_eq_getElem hn, hget])
  obtain ⟨hlt, hgq⟩ := List.getElem?_eq_some.mp hq
  refine ⟨q, ?_, hid, hsub⟩
  rw [← hgq]
  exact List.getElem_mem hlt

/-- `checkGameEnd` (Grid) only permutes the player list. -/
theorem mem_checkGameEndG_players (now : ℚ) (s : GState) {q : GPlayer}
    (hq : q ∈ s.players) : q ∈ (checkGameEndG now s).players := by
  rw [checkGameEndG]
  split_ifs
  · show q ∈ showGameOverG s.players
    exact (List.perm_insertionSort _ s.players).mem_iff.mpr hq
  · exact hq

/-- Index-wise monotonicity relation on Continuous player lists: ids are
stable and the polygon list only gains polygons. -/
abbrev SRel (ps qs : List SPlayer) : Prop :=
  ∀ (j : ℕ) (p : SPlayer), ps[j]? = some p →
    ∃ q : SPlayer, qs[j]? = some q ∧ p.id = q.id ∧
      ∃ t, q.territory = p.territory ++ t

theorem srel_refl (ps : List SPlayer) : SRel ps ps :=
  fun _ p hp => ⟨p, hp, rfl, [], (List.append_nil _).symm⟩

theorem srel_trans {a b c : List SPlayer} (h1 : SRel a b) (h2 : SRel b c) :
    SRel a c := by
  intro j p hp
  obtain ⟨q, hq, hid, t1, ht1⟩ := h1 j p hp
  obtain ⟨r, hr, hid2, t2, ht2⟩ := h2 j q hq
  exact ⟨r, hr, hid.trans hid2, t1 ++ t2,
    by rw [ht2, ht1, List.append_assoc]⟩

theorem srel_set {ps : List SPlayer} {i : ℕ} {p0 pnew : SPlayer}
    (hp0 : ps[i]? = some p0) (hid : p0.id = pnew.id)
    (ht : ∃ t, pnew.territory = p0.territory ++ t) :
    SRel ps (ps.set i pnew) := by
  intro j p hp
  have hi : i < ps.length := (List.getElem?_eq_some.mp hp0).1
  by_cases hij : i = j
  · subst hij
    have hpp : p = p0 := by
      have := hp0.symm.trans hp
      exact (Option.some_inj.mp this).symm
    subst hpp
    exact ⟨pnew, by rw [List.getElem?_set, if_pos rfl, if_pos hi], hid, ht⟩
  · exact ⟨p, by rw [List.getElem?_set_ne hij]; exact hp, rfl, [],
      (List.append_nil _).symm⟩

/-- `closeTrail` keeps the id and only appends to the polygon list. -/
theorem closeTrail_fields (p : SPlayer) :
    (closeTrail p).id = p.id ∧
    ∃ t, (closeTrail p).territory = p.territory ++ t := by
  rw [closeTrail]
  split_ifs with h
  · exact ⟨rfl, [], (List.append_nil _).symm⟩
  · exact ⟨rfl, [p.trail ++ [(p.x, p.y)]], rfl⟩

/-- The `updatePlayers` body (Continuous) keeps the id and only appends to
the polygon list. -/
theorem moveSPlayer_fields (dt : ℚ) (p : SPlayer) :
    (moveSPlayer dt p).id = p.id ∧
    ∃ t, (moveSPlayer dt p).territory = p.territory ++ t := by
  rw [moveSPlayer]
  by_cases h1 : p.alive = false ∨ (p.dirX = 0 ∧ p.dirY = 0)
  · rw [if_pos h1]
    exact ⟨rfl, [], (List.append_nil _).symm⟩
  · rw [if_neg h1]
    dsimp only
    split_ifs
    · exact ⟨rfl, [], (List.append_nil _).symm⟩
    · exact ⟨rfl, [], (List.append_nil _).symm⟩
    · exact ⟨(closeTrail_fields _).1, (closeTrail_fields _).2⟩
    · exact ⟨rfl, [], (List.append_nil _).symm⟩

theorem updateSPlayers_srel (dt : ℚ) (ps : List SPlayer) :
    SRel ps (updateSPlayers dt ps) := by
  intro j p hp
  rw [updateSPlayers, List.getElem?_map, hp]
  exact ⟨moveSPlayer dt p, rfl, (moveSPlayer_fields dt p).1.symm,
    (moveSPlayer_fields dt p).2⟩

/-- `checkCollisions` for one player never touches the id or the polygon
list. -/
theorem checkOneCollision_fields (cw ch : ℚ) (qs : List SPlayer) (p : SPlayer) :
    (checkOneCollision cw ch qs p).id = p.id ∧
    (checkOneCollision cw ch qs p).territory = p.territory := by
  rw [checkOneCollision]
  dsimp only
  split_ifs <;> exact ⟨rfl, rfl⟩

theorem checkCollisionsS_srel (cw ch : ℚ) (ps : List SPlayer) :
    SRel ps (checkCollisionsS cw ch ps) := by
  rw [checkCollisionsS, checkCollisionsUpTo]
  have main : ∀ (l : List ℕ) (acc : List SPlayer),
      SRel acc (l.foldl
        (fun acc i =>
          match acc[i]? with
          | none => acc
          | some p => acc.set i (checkOneCollision cw ch acc p)) acc) := by
    intro l
    induction l with
    | nil => intro acc; exact srel_refl _
    | cons x xs ih =>
      intro acc
      rw [List.foldl_cons]
      refine srel_trans ?_ (ih _)
      cases hq : acc[x]? with
      | none => exact srel_refl _
      | some p =>
        exact srel_set hq (checkOneCollision_fields cw ch acc p).1.symm
          ⟨[], by rw [(checkOneCollision_fields cw ch acc p).2, List.append_nil]⟩
  exact main (List.range ps.length) ps

theorem updateAIS_srel (oracle : ℕ → SPlayer → (ℚ × ℚ) × ℚ)
    (ps : List SPlayer) : SRel ps (updateAIS oracle ps) := by
  intro j p hp
  rw [updateAIS, List.getElem?_mapIdx, hp, Option.map_some']
  by_cases hc : p.alive = true ∧ p.isHuman = false
  · rw [if_pos hc]
    exact ⟨_, rfl, rfl, [], (List.append_nil _).symm⟩
  · rw [if_neg hc]
    exact ⟨p, rfl, rfl, [], (List.append_nil _).symm⟩

theorem checkGameEndS_players (now : ℚ) (s : SState) :
    (checkGameEndS now s).players = s.players := by
  rw [checkGameEndS]
  split_ifs <;> rfl

/-- C7 (amended).  Territory monotonicity across every simulation tick: in
the Grid engine, every player of the pre-tick list has a same-id player in
the post-tick list whose territory set contains its own (membership, because
`checkGameEnd` can permute the array at game end via the in-place sort); in
the Continuous engine the player at each index keeps its id and its polygon
list is only ever extended.  No operation — eliminations included — removes
territory.  (The claim's parenthetical that a nonzero grid owner never
changes is false: `claimTerritory` overwrites trail cells unconditionally,
see the counterexample.) -/
theorem territory_monotone_tick :
    (∀ (W H : ℤ) (oracle : ℕ → GAIChoice) (now now2 : ℚ) (s : GState),
      ∀ p ∈ s.players, ∃ q ∈ (gridTick W H oracle now now2 s).players,
        p.id = q.id ∧ p.territory ⊆ q.territory) ∧
    (∀ (cw ch : ℚ) (oracle : ℕ → SPlayer → (ℚ × ℚ) × ℚ) (now now2 : ℚ)
      (s : SState) (j : ℕ) (p : SPlayer), s.players[j]? = some p →
      ∃ q, (smoothTick cw ch oracle now now2 s).players[j]? = some q ∧
        p.id = q.id ∧ ∃ t, q.territory = p.territory ++ t) := by
  constructor
  · intro W H oracle now now2 s p hp
    rw [gridTick]
    by_cases hrun : s.gameRunning = true
    · rw [if_pos hrun]
      obtain ⟨q, hq, hid, hsub⟩ :=
        grel_mem (updatePlayersG_grel W H oracle now s.grid s.players) hp
      exact ⟨q, mem_checkGameEndG_players now2 _ hq, hid, hsub⟩
    · rw [if_neg hrun]
      exact ⟨p, hp, rfl, Finset.Subset.refl _⟩
  · intro cw ch oracle now now2 s j p hp
    rw [smoothTick]
    dsimp only
    by_cases hrun : s.gameRunning = true
    · rw [if_pos hrun]
      have h := srel_trans (srel_trans
        (updateSPlayers_srel ((now - s.lastFrameTime) / 1000) s.players)
        (checkCollisionsS_srel cw ch _)) (updateAIS_srel oracle _)
      obtain ⟨q, hq, hid, t, ht⟩ := h j p hp
      refine ⟨q, ?_, hid, t, ht⟩
      rw [checkGameEndS_players]
      exact hq
    · rw [if_neg hrun]
      exact ⟨p, hp, rfl, [], (List.append_nil _).symm⟩

/-- The player of the C7 counterexample: about to step into its territory
with a trail cell whose grid owner is player 2. -/
def gpOverwrite : GPlayer :=
  { id := 1, x := 0, y := 0, dirX := 0, dirY := 1, trail := [(1, 1)],
    territory := {(0, 1)}, alive := true, isHuman := true,
    lastMoveTime := 0, moveInterval := 0 }

/-- The C7 counterexample state: cell (1,1) is owned by player 2 but sits on
player 1's trail. -/
def gsOverwrite : GState :=
  { grid := fun c => if c = (1, 1) then 2 else 0,
    players := [gpOverwrite], gameRunning := true, gameStartTime := 0 }

/-- C7 counterexample to the claim as stated: one simulation tick changes the
owner of cell (1,1) from 2 to 1 — `claimTerritory` writes the claiming
player's id over every trail cell without checking the current owner, so a
grid cell with a nonzero owner can change owner. -/
theorem territory_owner_overwrite_counterexample :
    gsOverwrite.grid (1, 1) = 2 ∧
    (gridTick 3 3 (fun _ => ⟨0, true, 0⟩) 0 0 gsOverwrite).grid (1, 1) = 1 :=
  of_decide_eq_true (by with_unfolding_all rfl)

/-- C7 witness: both engine conjuncts at concrete states. -/
theorem territory_monotone_tick_witness :
    (∃ q ∈ (gridTick 80 60 (fun _ => ⟨0, true, 0⟩) 5 5 gsOneAlive).players,
        gpSample.id = q.id ∧ gpSample.territory ⊆ q.territory) ∧
    (∃ q, (smoothTick 800 600
        (fun _ p => ((p.dirX, p.dirY), p.lastDirectionChange)) 16 16
        ssTimedOut).players[0]? = some q ∧
      spSample.id = q.id ∧ ∃ t, q.territory = spSample.territory ++ t) :=
  ⟨territory_monotone_tick.1 80 60 (fun _ => ⟨0, true, 0⟩) 5 5 gsOneAlive
      gpSample (by simp [gsOneAlive]),
   territory_monotone_tick.2 800 600
      (fun _ p => ((p.dirX, p.dirY), p.lastDirectionChange)) 16 16
      ssTimedOut 0 spSample rfl⟩

end PaperArena
